import Mathlib

/-!
LRU / LFU cache: a shallow embedding of the headers and of cache_demo.cpp

The classes `LruCache` (include/LruCache.hpp), `LfuCache` (include/LfuCache.hpp)
and `LRUCache`, `LFUCache` (cache_demo.cpp).

Modelling conventions.

* `std::unordered_map<A, B>` is an association list `UMap A B` with the
  operations `find`, `erase`, `size` and the three uses of `operator[]`:
  `ensure` (the default-insertion side effect), `read` (the value read) and
  `set` (assignment through the reference).
* `std::list<T>` is a list of cells `(address, payload)`; an iterator is the
  address of the cell it designates, address `0` is the singular iterator.
  `push_front` allocates an address that no live cell of the container uses.
* An operation whose C++ behaviour is undefined (`back()`/`pop_back()` on an
  empty list, `erase`/`splice`/dereference through an iterator that designates
  no cell of the list) yields `none`; `some` carries the state after the call.
* The constructors of the headers call `reserve(capacity)`, which belongs to
  the standard library and throws for capacities it cannot serve. Whether it
  returns is a parameter of `construct`; `new` is the cache that a constructor
  which returned leaves behind (`reserve` changes the bucket count only, which
  is not part of the modelled state). `push_front` and the insertions always
  find a fresh cell.
* `size_t` capacities are natural numbers, and a signed argument reaches a
  `size_t` parameter of `w` bits reduced modulo `2^w` (`toSizeT`).
* The `int` frequency counters are 32 bits wide: `prev + 1` and `min_freq_++`
  are computed by `wrap32`, so that the successor of `2^31 - 1` is `-2^31`.
-/

namespace CacheModel

/-! ## `std::unordered_map` -/

/-- Association-list model of `std::unordered_map`. -/
abbrev UMap (A : Type) (B : Type) := List (A × B)

namespace UMap

variable {A B : Type} [DecidableEq A]

/-- Model of `m.find(k)`: the mapped value, `none` for `end()`. -/
def find : UMap A B → A → Option B
  | [], _ => none
  | (a, b) :: m, k => if a = k then some b else find m k

/-- Model of `m.erase(k)`. -/
def erase : UMap A B → A → UMap A B
  | [], _ => []
  | (a, b) :: m, k => if a = k then erase m k else (a, b) :: erase m k

/-- Model of `m[k] = v`: overwrite the mapped value, or insert the pair. -/
def set : UMap A B → A → B → UMap A B
  | [], k, v => [(k, v)]
  | (a, b) :: m, k, v => if a = k then (a, v) :: m else (a, b) :: set m k v

/-- Model of `m.size()`. -/
def size (m : UMap A B) : Nat := m.length

/-- The side effect of evaluating `m[k]`: a value-initialised entry is inserted
when `k` has none. -/
def ensure [Inhabited B] (m : UMap A B) (k : A) : UMap A B :=
  match find m k with
  | some _ => m
  | none => set m k default

/-- The value designated by `m[k]`. -/
def read [Inhabited B] (m : UMap A B) (k : A) : B :=
  (find m k).getD default

/-- The keys of the map, in storage order. -/
def keys (m : UMap A B) : List A := m.map Prod.fst

end UMap

/-! ## `std::list` -/

/-- Cell-list model of `std::list<T>`: each cell carries its address. -/
abbrev SList (T : Type) := List (Nat × T)

namespace SList

variable {T : Type}

/-- The largest address used by a cell of the list (`0` when empty). -/
def maxAddr : SList T → Nat
  | [] => 0
  | c :: l => max c.1 (maxAddr l)

/-- Model of `*it`: the payload of the cell at address `it`. -/
def deref : SList T → Nat → Option T
  | [], _ => none
  | c :: l, it => if c.1 = it then some c.2 else deref l it

/-- Model of `l.erase(it)`; undefined when `it` designates no cell of `l`. -/
def erase : SList T → Nat → Option (SList T)
  | [], _ => none
  | c :: l, it => if c.1 = it then some l else (erase l it).map (fun r => c :: r)

/-- Model of `*it = x` (assignment through the iterator). -/
def assign : SList T → Nat → T → Option (SList T)
  | [], _, _ => none
  | c :: l, it, x =>
    if c.1 = it then some ((c.1, x) :: l) else (assign l it x).map (fun r => c :: r)

/-- Model of `l.splice(l.begin(), l, it)`: the cell at `it` is relinked in
front; it keeps its address. -/
def spliceFront (l : SList T) (it : Nat) : Option (SList T) :=
  match deref l it, erase l it with
  | some x, some r => some ((it, x) :: r)
  | _, _ => none

/-- Model of `l.begin()`: the address of the first cell. -/
def begin : SList T → Nat
  | [] => 0
  | c :: _ => c.1

/-- Model of `l.back()`; undefined on an empty list. -/
def back (l : SList T) : Option T := l.getLast?.map Prod.snd

/-- Model of `l.pop_back()`; undefined on an empty list. -/
def popBack (l : SList T) : Option (SList T) :=
  match l with
  | [] => none
  | _ :: _ => some l.dropLast

/-- Model of `l.push_front(x)` with the cell allocated at address `a`. -/
def pushFront (l : SList T) (a : Nat) (x : T) : SList T := (a, x) :: l

end SList

/-! ## `int` arithmetic -/

/-- The value of an `int` expression whose mathematical value is `x`: 32-bit
two's-complement arithmetic, so `2^31 - 1 + 1` is `-2^31`. -/
def wrap32 (x : Int) : Int := (x + 2147483648) % 4294967296 - 2147483648

/-! ## `LruCache` (include/LruCache.hpp) -/

/-- The `Node` of `LruCache`. -/
structure LruCache.Node (K V : Type) where
  key : K
  value : V
  deriving DecidableEq, Repr

/-- The data members of `LruCache<Key, Value>`. -/
structure LruCache (K V : Type) where
  capacity_ : Nat
  lru_list_ : SList (LruCache.Node K V)
  cache_map_ : UMap K Nat
  deriving DecidableEq, Repr

namespace LruCache

variable {K V : Type} [DecidableEq K]

/-- The cache that the constructor `LruCache(capacity)` leaves when it
returns: `capacity_` is initialised from the argument and both containers are
empty. -/
def new (capacity : Nat) : LruCache K V :=
  { capacity_ := capacity, lru_list_ := [], cache_map_ := [] }

/-- The method `LruCache::get`: `some (state, result)`, `none` when undefined. -/
def get (c : LruCache K V) (key : K) : Option (LruCache K V × Option V) :=
  match UMap.find c.cache_map_ key with
  | none => some (c, none)
  | some it =>
    match SList.spliceFront c.lru_list_ it with
    | none => none
    | some l =>
      match SList.deref l it with
      | none => none
      | some n => some ({ c with lru_list_ := l }, some n.value)

/-- The "Evict if full" block of `LruCache::put`. -/
def evictIfFull (c : LruCache K V) : Option (LruCache K V) :=
  if c.lru_list_.length ≥ c.capacity_ then
    match SList.back c.lru_list_, SList.popBack c.lru_list_ with
    | some last, some l =>
      some { c with cache_map_ := UMap.erase c.cache_map_ last.key, lru_list_ := l }
    | _, _ => none
  else some c

/-- The method `LruCache::put`. -/
def put (c : LruCache K V) (key : K) (value : V) : Option (LruCache K V) :=
  match UMap.find c.cache_map_ key with
  | some it =>
    match SList.deref c.lru_list_ it with
    | none => none
    | some n =>
      match SList.assign c.lru_list_ it { n with value := value } with
      | none => none
      | some l1 =>
        match SList.spliceFront l1 it with
        | none => none
        | some l2 => some { c with lru_list_ := l2 }
  | none =>
    match evictIfFull c with
    | none => none
    | some c1 =>
      let l := SList.pushFront c1.lru_list_ (SList.maxAddr c1.lru_list_ + 1) ⟨key, value⟩
      some { c1 with lru_list_ := l, cache_map_ := UMap.set c1.cache_map_ key (SList.begin l) }

end LruCache

/-- A call of the public interface. -/
inductive Op (K V : Type) where
  | get (key : K)
  | put (key : K) (value : V)
  deriving DecidableEq, Repr

namespace LruCache

variable {K V : Type} [DecidableEq K]

/-- One call: the state after it and what it returned (`none` for `put` and
for a miss). -/
def step (c : LruCache K V) : Op K V → Option (LruCache K V × Option V)
  | .get k => get c k
  | .put k v => (put c k v).map (fun c1 => (c1, none))

/-- Run a sequence of calls, collecting the results in call order. -/
def runFrom : LruCache K V → List (Op K V) → Option (LruCache K V × List (Option V))
  | c, [] => some (c, [])
  | c, op :: ops =>
    match step c op with
    | none => none
    | some (c1, r) =>
      match runFrom c1 ops with
      | none => none
      | some (c2, rs) => some (c2, r :: rs)

/-- Run a sequence of calls on a fresh cache, one whose construction
returned. -/
def run (capacity : Nat) (ops : List (Op K V)) : Option (LruCache K V × List (Option V)) :=
  runFrom (new capacity) ops

end LruCache

/-! ## `LfuCache` (include/LfuCache.hpp) -/

/-- The `Node` of `LfuCache`. -/
structure LfuCache.Node (V : Type) where
  value : V
  freq : Int
  deriving DecidableEq, Repr

instance {V : Type} [Inhabited V] : Inhabited (LfuCache.Node V) := ⟨⟨default, 0⟩⟩

/-- The data members of `LfuCache<Key, Value>`. -/
structure LfuCache (K V : Type) where
  capacity_ : Nat
  min_freq_ : Int
  key_to_val_ : UMap K (LfuCache.Node V)
  freq_to_keys_ : UMap Int (SList K)
  key_to_iter_ : UMap K Nat
  deriving DecidableEq, Repr

namespace LfuCache

variable {K V : Type} [DecidableEq K] [Inhabited V]

/-- The cache that the constructor `LfuCache(capacity)` leaves when it
returns: `capacity_` is initialised from the argument, `min_freq_` is 0 and the
three containers are empty. -/
def new (capacity : Nat) : LfuCache K V :=
  { capacity_ := capacity, min_freq_ := 0, key_to_val_ := [], freq_to_keys_ := [],
    key_to_iter_ := [] }

/-- The largest address used by a cell of any frequency list. -/
def maxAddr : UMap Int (SList K) → Nat
  | [] => 0
  | (_, l) :: m => max (SList.maxAddr l) (maxAddr m)

/-- The statement `freq_to_keys_[f].push_front(key)`. -/
def pushKey (m : UMap Int (SList K)) (f : Int) (key : K) : UMap Int (SList K) :=
  UMap.set m f (SList.pushFront (UMap.read m f) (maxAddr m + 1) key)

/-- The method `LfuCache::touch`. -/
def touch (c : LfuCache K V) (key : K) : Option (LfuCache K V) :=
  let kv1 := UMap.ensure c.key_to_val_ key
  let prev := (UMap.read kv1 key).freq
  let next := wrap32 (prev + 1)
  let ft1 := UMap.ensure c.freq_to_keys_ prev
  let ki1 := UMap.ensure c.key_to_iter_ key
  match SList.erase (UMap.read ft1 prev) (UMap.read ki1 key) with
  | none => none
  | some l =>
    let ft2 := UMap.set ft1 prev l
    let ft3 := if l.isEmpty then UMap.erase ft2 prev else ft2
    let mf := if l.isEmpty ∧ c.min_freq_ = prev then wrap32 (c.min_freq_ + 1) else c.min_freq_
    let kv2 := UMap.set kv1 key { UMap.read kv1 key with freq := next }
    let ft4 := pushKey ft3 next key
    let ki2 := UMap.set ki1 key (SList.begin (UMap.read ft4 next))
    some { c with min_freq_ := mf, key_to_val_ := kv2, freq_to_keys_ := ft4,
                  key_to_iter_ := ki2 }

/-- The method `LfuCache::evict`. -/
def evict (c : LfuCache K V) : Option (LfuCache K V) :=
  let ft1 := UMap.ensure c.freq_to_keys_ c.min_freq_
  let list := UMap.read ft1 c.min_freq_
  match SList.back list, SList.popBack list with
  | some k, some l =>
    let ft2 := UMap.set ft1 c.min_freq_ l
    let ft3 := if l.isEmpty then UMap.erase ft2 c.min_freq_ else ft2
    some { c with freq_to_keys_ := ft3, key_to_val_ := UMap.erase c.key_to_val_ k,
                  key_to_iter_ := UMap.erase c.key_to_iter_ k }
  | _, _ => none

/-- The method `LfuCache::get`. -/
def get (c : LfuCache K V) (key : K) : Option (LfuCache K V × Option V) :=
  match UMap.find c.key_to_val_ key with
  | none => some (c, none)
  | some _ =>
    match touch c key with
    | none => none
    | some c1 =>
      some ({ c1 with key_to_val_ := UMap.ensure c1.key_to_val_ key },
            some (UMap.read c1.key_to_val_ key).value)

/-- The last four statements of `LfuCache::put`: the insertion of a new key
at frequency 1. -/
def insertNew (c : LfuCache K V) (key : K) (value : V) : LfuCache K V :=
  let ft := pushKey c.freq_to_keys_ 1 key
  { c with min_freq_ := 1,
           freq_to_keys_ := ft,
           key_to_val_ := UMap.set c.key_to_val_ key ⟨value, 1⟩,
           key_to_iter_ := UMap.set c.key_to_iter_ key (SList.begin (UMap.read ft 1)) }

/-- The method `LfuCache::put`. -/
def put (c : LfuCache K V) (key : K) (value : V) : Option (LfuCache K V) :=
  if c.capacity_ = 0 then some c
  else
    match UMap.find c.key_to_val_ key with
    | some _ =>
      touch { c with key_to_val_ :=
                UMap.set c.key_to_val_ key { UMap.read c.key_to_val_ key with value := value } }
            key
    | none =>
      match (if UMap.size c.key_to_val_ ≥ c.capacity_ then evict c else some c) with
      | none => none
      | some c1 => some (insertNew c1 key value)

/-- One call: the state after it and what it returned (`none` for `put` and
for a miss). -/
def step (c : LfuCache K V) : Op K V → Option (LfuCache K V × Option V)
  | .get k => get c k
  | .put k v => (put c k v).map (fun c1 => (c1, none))

/-- Run a sequence of calls, collecting the results in call order. -/
def runFrom : LfuCache K V → List (Op K V) → Option (LfuCache K V × List (Option V))
  | c, [] => some (c, [])
  | c, op :: ops =>
    match step c op with
    | none => none
    | some (c1, r) =>
      match runFrom c1 ops with
      | none => none
      | some (c2, rs) => some (c2, r :: rs)

/-- Run a sequence of calls on a fresh cache, one whose construction
returned. -/
def run (capacity : Nat) (ops : List (Op K V)) : Option (LfuCache K V × List (Option V)) :=
  runFrom (new capacity) ops

end LfuCache

/-- Apply `g` to every mapped value of a map. -/
def UMap.mapVal {A B C : Type} (g : B → C) (m : UMap A B) : UMap A C :=
  m.map (fun p => (p.1, g p.2))

/-- Apply `g` to the payload of every cell of a list; addresses are kept. -/
def SList.mapVal {T U : Type} (g : T → U) (l : SList T) : SList U :=
  l.map (fun cl => (cl.1, g cl.2))

/-! ## `LRUCache` and `LFUCache` (cache_demo.cpp) -/

/-- The `Node` of `LRUCache`. -/
structure LRUCache.Node (K V : Type) where
  key : K
  value : V
  deriving DecidableEq, Repr

/-- The data members of `LRUCache<K, V>`. -/
structure LRUCache (K V : Type) where
  capacity_ : Nat
  items_ : SList (LRUCache.Node K V)
  lookup_ : UMap K Nat
  deriving DecidableEq, Repr

namespace LRUCache

variable {K V : Type} [DecidableEq K]

/-- The cache that the constructor `LRUCache(capacity)` leaves when it
returns (its body is the library call `lookup_.reserve(capacity * 2)`). -/
def new (capacity : Nat) : LRUCache K V :=
  { capacity_ := capacity, items_ := [], lookup_ := [] }

/-- The method `LRUCache::get`. -/
def get (c : LRUCache K V) (key : K) : Option (LRUCache K V × Option V) :=
  match UMap.find c.lookup_ key with
  | none => some (c, none)
  | some it =>
    match SList.spliceFront c.items_ it with
    | none => none
    | some l =>
      match SList.deref l it with
      | none => none
      | some n => some ({ c with items_ := l }, some n.value)

/-- The method `LRUCache::put`. -/
def put (c : LRUCache K V) (key : K) (value : V) : Option (LRUCache K V) :=
  match UMap.find c.lookup_ key with
  | some it =>
    match SList.deref c.items_ it with
    | none => none
    | some n =>
      match SList.assign c.items_ it { n with value := value } with
      | none => none
      | some l1 =>
        match SList.spliceFront l1 it with
        | none => none
        | some l2 => some { c with items_ := l2 }
  | none =>
    let evicted : Option (LRUCache K V) :=
      if c.items_.length ≥ c.capacity_ then
        match SList.back c.items_, SList.popBack c.items_ with
        | some last, some l =>
          some { c with lookup_ := UMap.erase c.lookup_ last.key, items_ := l }
        | _, _ => none
      else some c
    match evicted with
    | none => none
    | some c1 =>
      let l := SList.pushFront c1.items_ (SList.maxAddr c1.items_ + 1) ⟨key, value⟩
      some { c1 with items_ := l, lookup_ := UMap.set c1.lookup_ key (SList.begin l) }

/-- One call on an `LRUCache`. -/
def step (c : LRUCache K V) : Op K V → Option (LRUCache K V × Option V)
  | .get k => get c k
  | .put k v => (put c k v).map (fun c1 => (c1, none))

/-- Run a sequence of calls, collecting the results in call order. -/
def runFrom : LRUCache K V → List (Op K V) → Option (LRUCache K V × List (Option V))
  | c, [] => some (c, [])
  | c, op :: ops =>
    match step c op with
    | none => none
    | some (c1, r) =>
      match runFrom c1 ops with
      | none => none
      | some (c2, rs) => some (c2, r :: rs)

/-- Run a sequence of calls on a fresh `LRUCache`, one whose construction
returned. -/
def run (capacity : Nat) (ops : List (Op K V)) : Option (LRUCache K V × List (Option V)) :=
  runFrom (new capacity) ops

/-- The `LruCache` node with the same contents. -/
def toNode (n : LRUCache.Node K V) : LruCache.Node K V := ⟨n.key, n.value⟩

/-- The `LruCache` state with the same contents. -/
def toHeader (c : LRUCache K V) : LruCache K V :=
  { capacity_ := c.capacity_, lru_list_ := SList.mapVal toNode c.items_,
    cache_map_ := c.lookup_ }

end LRUCache

/-- The `Entry` of `LFUCache`. -/
structure LFUCache.Entry (V : Type) where
  value : V
  freq : Int
  deriving DecidableEq, Repr

instance {V : Type} [Inhabited V] : Inhabited (LFUCache.Entry V) := ⟨⟨default, 0⟩⟩

/-- The data members of `LFUCache<K, V>`. -/
structure LFUCache (K V : Type) where
  capacity_ : Nat
  minFreq_ : Int
  data_ : UMap K (LFUCache.Entry V)
  freqList_ : UMap Int (SList K)
  iter_ : UMap K Nat
  deriving DecidableEq, Repr

namespace LFUCache

variable {K V : Type} [DecidableEq K] [Inhabited V]

/-- The cache that the constructor `LFUCache(capacity)` leaves when it
returns (its body is the library calls `data_.reserve(capacity * 2)` and
`iter_.reserve(capacity * 2)`). -/
def new (capacity : Nat) : LFUCache K V :=
  { capacity_ := capacity, minFreq_ := 0, data_ := [], freqList_ := [], iter_ := [] }

/-- The method `LFUCache::increaseFreq`. -/
def increaseFreq (c : LFUCache K V) (key : K) : Option (LFUCache K V) :=
  let data1 := UMap.ensure c.data_ key
  let f := (UMap.read data1 key).freq
  let iter1 := UMap.ensure c.iter_ key
  let it := UMap.read iter1 key
  let fl1 := UMap.ensure c.freqList_ f
  match SList.erase (UMap.read fl1 f) it with
  | none => none
  | some l =>
    let fl2 := UMap.set fl1 f l
    let fl3 := if l.isEmpty then UMap.erase fl2 f else fl2
    let mf := if l.isEmpty ∧ c.minFreq_ = f then wrap32 (c.minFreq_ + 1) else c.minFreq_
    let newFreq := wrap32 (f + 1)
    let data2 := UMap.set data1 key { UMap.read data1 key with freq := newFreq }
    let fl4 := LfuCache.pushKey fl3 newFreq key
    let iter2 := UMap.set iter1 key (SList.begin (UMap.read fl4 newFreq))
    some { c with minFreq_ := mf, data_ := data2, freqList_ := fl4, iter_ := iter2 }

/-- The method `LFUCache::get`. -/
def get (c : LFUCache K V) (key : K) : Option (LFUCache K V × Option V) :=
  match UMap.find c.data_ key with
  | none => some (c, none)
  | some _ =>
    match increaseFreq c key with
    | none => none
    | some c1 =>
      some ({ c1 with data_ := UMap.ensure c1.data_ key }, some (UMap.read c1.data_ key).value)

/-- The "Evict if needed" block of `LFUCache::put`. -/
def evictIfNeeded (c : LFUCache K V) : Option (LFUCache K V) :=
  if UMap.size c.data_ ≥ c.capacity_ then
    let fl1 := UMap.ensure c.freqList_ c.minFreq_
    let lst := UMap.read fl1 c.minFreq_
    match SList.back lst, SList.popBack lst with
    | some evictKey, some l =>
      let fl2 := UMap.set fl1 c.minFreq_ l
      let fl3 := if l.isEmpty then UMap.erase fl2 c.minFreq_ else fl2
      some { c with freqList_ := fl3, data_ := UMap.erase c.data_ evictKey,
                    iter_ := UMap.erase c.iter_ evictKey }
    | _, _ => none
  else some c

/-- The method `LFUCache::put`. -/
def put (c : LFUCache K V) (key : K) (value : V) : Option (LFUCache K V) :=
  if c.capacity_ = 0 then some c
  else
    match UMap.find c.data_ key with
    | some _ =>
      increaseFreq
        { c with data_ := UMap.set c.data_ key { UMap.read c.data_ key with value := value } }
        key
    | none =>
      match evictIfNeeded c with
      | none => none
      | some c1 =>
        let fl := LfuCache.pushKey c1.freqList_ 1 key
        some { c1 with minFreq_ := 1,
                       freqList_ := fl,
                       iter_ := UMap.set c1.iter_ key (SList.begin (UMap.read fl 1)),
                       data_ := UMap.set c1.data_ key ⟨value, 1⟩ }

/-- One call on an `LFUCache`. -/
def step (c : LFUCache K V) : Op K V → Option (LFUCache K V × Option V)
  | .get k => get c k
  | .put k v => (put c k v).map (fun c1 => (c1, none))

/-- Run a sequence of calls, collecting the results in call order. -/
def runFrom : LFUCache K V → List (Op K V) → Option (LFUCache K V × List (Option V))
  | c, [] => some (c, [])
  | c, op :: ops =>
    match step c op with
    | none => none
    | some (c1, r) =>
      match runFrom c1 ops with
      | none => none
      | some (c2, rs) => some (c2, r :: rs)

/-- Run a sequence of calls on a fresh `LFUCache`, one whose construction
returned. -/
def run (capacity : Nat) (ops : List (Op K V)) : Option (LFUCache K V × List (Option V)) :=
  runFrom (new capacity) ops

/-- The `LfuCache` record with the same contents. -/
def toNode (e : LFUCache.Entry V) : LfuCache.Node V := ⟨e.value, e.freq⟩

/-- The `LfuCache` state with the same contents. -/
def toHeader (c : LFUCache K V) : LfuCache K V :=
  { capacity_ := c.capacity_, min_freq_ := c.minFreq_,
    key_to_val_ := UMap.mapVal toNode c.data_,
    freq_to_keys_ := c.freqList_, key_to_iter_ := c.iter_ }

end LFUCache

/-! ## Abstract view and representation invariant of `LruCache` -/

namespace LruCache

variable {K V : Type} [DecidableEq K]

/-- The `(key, value)` pairs of the order sequence, most recently used first. -/
def entries (c : LruCache K V) : List (K × V) :=
  c.lru_list_.map (fun cl => (cl.2.key, cl.2.value))

/-- Representation invariant of `LruCache`: cells have distinct addresses and
distinct keys, the index has one entry per key, an index entry `key ↦ it`
exists exactly when the cell at `it` carries `key`, and the order sequence is
no longer than the capacity. -/
structure WF (c : LruCache K V) : Prop where
  addrs : (c.lru_list_.map Prod.fst).Nodup
  keysL : (c.lru_list_.map (fun cl => cl.2.key)).Nodup
  keysM : (UMap.keys c.cache_map_).Nodup
  link : ∀ k it, UMap.find c.cache_map_ k = some it ↔
    ∃ v, (it, (⟨k, v⟩ : LruCache.Node K V)) ∈ c.lru_list_
  bound : c.lru_list_.length ≤ c.capacity_

end LruCache

/-! ## Representation invariant of `LfuCache` -/

namespace LfuCache

variable {K V : Type} [DecidableEq K] [Inhabited V]

/-- The frequency map once the list of tier `f` has been shortened to `l`:
the tier is dropped when `l` is empty. -/
def shrinkTier (m : UMap Int (SList K)) (f : Int) (l : SList K) : UMap Int (SList K) :=
  if l.isEmpty then UMap.erase m f else UMap.set m f l

/-- The part of the invariant of `LfuCache` that holds between the statements
of `put` as well: the three maps have one entry per key; every live key has an
iterator that designates its cell in the tier of its recorded frequency; every
tier is non-empty, has cells of distinct addresses, and each of its cells
belongs to a live key of that frequency whose iterator designates it; only
live keys have an iterator. -/
structure Core (c : LfuCache K V) : Prop where
  keysV : (UMap.keys c.key_to_val_).Nodup
  keysI : (UMap.keys c.key_to_iter_).Nodup
  keysF : (UMap.keys c.freq_to_keys_).Nodup
  live : ∀ k n, UMap.find c.key_to_val_ k = some n →
    ∃ it t, UMap.find c.key_to_iter_ k = some it ∧
      UMap.find c.freq_to_keys_ n.freq = some t ∧ (it, k) ∈ t
  tier : ∀ f t, UMap.find c.freq_to_keys_ f = some t →
    t ≠ [] ∧ (t.map Prod.fst).Nodup ∧
      ∀ it k, (it, k) ∈ t → UMap.find c.key_to_iter_ k = some it ∧
        ∃ n, UMap.find c.key_to_val_ k = some n ∧ n.freq = f
  iter : ∀ k, UMap.find c.key_to_val_ k = none → UMap.find c.key_to_iter_ k = none

/-- The invariant of `LfuCache` at call boundaries: `Core`, the capacity bound,
the tier of `min_freq_` exists whenever a key is live, and every recorded
frequency is an `int` value. -/
structure Inv (c : LfuCache K V) : Prop where
  core : Core c
  bound : UMap.size c.key_to_val_ ≤ c.capacity_
  minf : c.key_to_val_ ≠ [] → (UMap.find c.freq_to_keys_ c.min_freq_).isSome
  range : ∀ k n, UMap.find c.key_to_val_ k = some n →
    -2147483648 ≤ n.freq ∧ n.freq ≤ 2147483647

end LfuCache

/-! ## Time of last touch (ghost bookkeeping for `LfuCache`) -/

/-- The key named by a call. -/
def Op.key {K V : Type} : Op K V → K
  | .get k => k
  | .put k _ => k

namespace LfuCache

variable {K V : Type} [DecidableEq K] [Inhabited V]

end LfuCache

/-- The keys of the worked examples. -/
inductive Key3 where
  | A | B | C
  deriving DecidableEq, Repr

/-- The value that a parameter of type `size_t` (of `w` bits) receives from a
signed argument `n`: the integral conversion reduces it modulo `2^w`. -/
def toSizeT (w : Nat) (n : Int) : Nat := (n % 2 ^ w).toNat

/-- The `LruCache` of capacity 2 after `put(1,10)`, `put(2,20)`. -/
def lruAfter12 : LruCache Nat Nat :=
  { capacity_ := 2, lru_list_ := [(2, ⟨2, 20⟩), (1, ⟨1, 10⟩)], cache_map_ := [(1, 1), (2, 2)] }

/-- The `LfuCache` of capacity 2 after `put(A,1)`, `put(B,2)`. -/
def lfuAfterAB : LfuCache Key3 Nat :=
  { capacity_ := 2, min_freq_ := 1,
    key_to_val_ := [(Key3.A, ⟨1, 1⟩), (Key3.B, ⟨2, 1⟩)],
    freq_to_keys_ := [(1, [(2, Key3.B), (1, Key3.A)])],
    key_to_iter_ := [(Key3.A, 1), (Key3.B, 2)] }

end CacheModel

namespace CacheModel

/-! ## Facts about the `std::unordered_map` model -/

namespace UMap

variable {A B : Type} [DecidableEq A]

theorem find_set (m : UMap A B) (k k' : A) (v : B) :
    find (set m k v) k' = if k = k' then some v else find m k' := by
  induction m with
  | nil => simp [set, find]
  | cons p m ih =>
    obtain ⟨a, b⟩ := p
    by_cases h1 : a = k
    · subst h1
      by_cases h2 : a = k' <;> simp [set, find, h2]
    · by_cases h2 : a = k'
      · subst h2
        simp [set, find, h1, Ne.symm h1]
      · simp [set, find, h1, h2, ih]

theorem find_set_self (m : UMap A B) (k : A) (v : B) : find (set m k v) k = some v := by
  simp [find_set]

theorem find_set_ne (m : UMap A B) {k k' : A} (v : B) (h : k ≠ k') :
    find (set m k v) k' = find m k' := by
  simp [find_set, h]

theorem find_erase (m : UMap A B) (k k' : A) :
    find (erase m k) k' = if k = k' then none else find m k' := by
  induction m with
  | nil => simp [erase, find]
  | cons p m ih =>
    obtain ⟨a, b⟩ := p
    by_cases h1 : a = k
    · subst h1
      by_cases h2 : a = k'
      · subst h2; simp [erase, ih]
      · simp [erase, find, h2, ih]
    · by_cases h2 : a = k'
      · subst h2
        simp [erase, find, h1, Ne.symm h1]
      · simp [erase, find, h1, h2, ih]

theorem find_erase_self (m : UMap A B) (k : A) : find (erase m k) k = none := by
  simp [find_erase]

theorem find_erase_ne (m : UMap A B) {k k' : A} (h : k ≠ k') :
    find (erase m k) k' = find m k' := by
  simp [find_erase, h]

theorem set_set (m : UMap A B) (k : A) (v w : B) : set (set m k v) k w = set m k w := by
  induction m with
  | nil => simp [set]
  | cons p m ih =>
    obtain ⟨a, b⟩ := p
    by_cases h1 : a = k <;> simp [set, h1, ih]

theorem size_set (m : UMap A B) (k : A) (v : B) :
    size (set m k v) = if (find m k).isSome then size m else size m + 1 := by
  induction m with
  | nil => simp [set, find, size]
  | cons p m ih =>
    obtain ⟨a, b⟩ := p
    simp only [size] at ih ⊢
    by_cases h1 : a = k
    · simp [set, find, h1]
    · simp only [set, find, h1, if_false, List.length_cons, ih]
      split <;> rfl

theorem size_erase_le (m : UMap A B) (k : A) : size (erase m k) ≤ size m := by
  induction m with
  | nil => simp [erase]
  | cons p m ih =>
    obtain ⟨a, b⟩ := p
    simp only [size] at ih ⊢
    by_cases h1 : a = k
    · simp only [erase, h1, if_true, List.length_cons]; subst h1; omega
    · simp only [erase, h1, if_false, List.length_cons]; omega

theorem size_erase_lt (m : UMap A B) (k : A) (h : find m k ≠ none) :
    size (erase m k) < size m := by
  induction m with
  | nil => simp [find] at h
  | cons p m ih =>
    obtain ⟨a, b⟩ := p
    simp only [size] at ih ⊢
    by_cases h1 : a = k
    · have := size_erase_le m k
      simp only [size] at this
      simp only [erase, h1, if_true, List.length_cons]; omega
    · simp only [find, h1, if_false] at h
      have := ih h
      simp only [erase, h1, if_false, List.length_cons]; omega

theorem mem_keys_iff (m : UMap A B) (k : A) : k ∈ keys m ↔ find m k ≠ none := by
  induction m with
  | nil => simp [keys, find]
  | cons p m ih =>
    obtain ⟨a, b⟩ := p
    simp only [keys] at ih
    by_cases h1 : a = k
    · simp [keys, find, h1]
    · simp [keys, find, h1, ih, Ne.symm h1]

theorem keys_set (m : UMap A B) (k : A) (v : B) :
    keys (set m k v) = if (find m k).isSome then keys m else keys m ++ [k] := by
  induction m with
  | nil => simp [set, find, keys]
  | cons p m ih =>
    obtain ⟨a, b⟩ := p
    simp only [keys] at ih ⊢
    by_cases h1 : a = k
    · simp [set, find, h1]
    · simp only [set, find, h1, if_false, List.map_cons, ih]
      split <;> rfl

theorem nodup_keys_set (m : UMap A B) (k : A) (v : B) (h : (keys m).Nodup) :
    (keys (set m k v)).Nodup := by
  rw [keys_set]
  split
  · exact h
  · rename_i hk
    have : k ∉ keys m := by rw [mem_keys_iff]; simpa using hk
    exact List.Nodup.append h (by simp) (by simpa using this)

theorem keys_erase (m : UMap A B) (k : A) :
    keys (erase m k) = (keys m).filter (fun a => !decide (a = k)) := by
  induction m with
  | nil => simp [erase, keys]
  | cons p m ih =>
    obtain ⟨a, b⟩ := p
    simp only [keys] at ih ⊢
    by_cases h1 : a = k
    · simp [erase, h1, ih]
    · simp [erase, h1, ih]

theorem nodup_keys_erase (m : UMap A B) (k : A) (h : (keys m).Nodup) :
    (keys (erase m k)).Nodup := by
  rw [keys_erase]; exact h.filter _

theorem ensure_of_find [Inhabited B] {m : UMap A B} {k : A} {b : B} (h : find m k = some b) :
    ensure m k = m := by
  simp [ensure, h]

theorem read_of_find [Inhabited B] {m : UMap A B} {k : A} {b : B} (h : find m k = some b) :
    read m k = b := by
  simp [read, h]

theorem eq_nil_of_find_none (m : UMap A B) (h : ∀ k, find m k = none) : m = [] := by
  cases m with
  | nil => rfl
  | cons p m =>
    obtain ⟨a, b⟩ := p
    have := h a
    simp [find] at this

end UMap

/-! ## Facts about the `std::list` model -/

namespace SList

variable {T : Type}

theorem le_maxAddr_of_mem {l : SList T} {c : Nat × T} (h : c ∈ l) : c.1 ≤ maxAddr l := by
  induction l with
  | nil => cases h
  | cons d l ih =>
    simp only [maxAddr]
    rcases List.mem_cons.1 h with rfl | h
    · exact le_max_left _ _
    · exact le_trans (ih h) (le_max_right _ _)

theorem fresh_not_mem (l : SList T) : maxAddr l + 1 ∉ l.map Prod.fst := by
  intro h
  obtain ⟨c, hc, he⟩ := List.mem_map.1 h
  have := le_maxAddr_of_mem hc
  omega

theorem deref_erase_of_mem (l : SList T) (it : Nat) (x : T)
    (hn : (l.map Prod.fst).Nodup) (hm : (it, x) ∈ l) :
    deref l it = some x ∧ erase l it = some (l.filter (fun c => !decide (c.1 = it))) := by
  induction l with
  | nil => cases hm
  | cons c l ih =>
    rw [List.map_cons, List.nodup_cons] at hn
    by_cases hc : c.1 = it
    · have hnot : it ∉ l.map Prod.fst := hc ▸ hn.1
      have hcx : c = (it, x) := by
        rcases List.mem_cons.1 hm with h | h
        · exact h.symm
        · exact absurd (List.mem_map_of_mem Prod.fst h) hnot
      subst hcx
      refine ⟨by simp [deref], ?_⟩
      have hf : l.filter (fun c => !decide (c.1 = it)) = l := by
        rw [List.filter_eq_self]
        intro d hd
        have : d.1 ≠ it := fun h => hnot (h ▸ List.mem_map_of_mem Prod.fst hd)
        simpa using this
      simp [erase, List.filter_cons, hf]
    · have hm2 : (it, x) ∈ l := by
        rcases List.mem_cons.1 hm with h | h
        · exact absurd (by rw [← h]) hc
        · exact h
      obtain ⟨h1, h2⟩ := ih hn.2 hm2
      simp [deref, erase, hc, h1, h2, List.filter_cons]

theorem spliceFront_of_mem (l : SList T) (it : Nat) (x : T)
    (hn : (l.map Prod.fst).Nodup) (hm : (it, x) ∈ l) :
    spliceFront l it = some ((it, x) :: l.filter (fun c => !decide (c.1 = it))) := by
  obtain ⟨h1, h2⟩ := deref_erase_of_mem l it x hn hm
  simp [spliceFront, h1, h2]

theorem assign_of_mem (l : SList T) (it : Nat) (x y : T) (hm : (it, x) ∈ l) :
    ∃ l1, assign l it y = some l1 ∧ (it, y) ∈ l1 ∧ l1.map Prod.fst = l.map Prod.fst ∧
      l1.filter (fun c => !decide (c.1 = it)) = l.filter (fun c => !decide (c.1 = it)) := by
  induction l with
  | nil => cases hm
  | cons c l ih =>
    by_cases hc : c.1 = it
    · exact ⟨(c.1, y) :: l, by simp [assign, hc], by simp [hc], by simp,
        by simp [List.filter_cons, hc]⟩
    · have hm2 : (it, x) ∈ l := by
        rcases List.mem_cons.1 hm with h | h
        · exact absurd (by rw [← h]) hc
        · exact h
      obtain ⟨l1, h1, h2, h3, h4⟩ := ih hm2
      exact ⟨c :: l1, by simp [assign, hc, h1], List.mem_cons_of_mem _ h2, by simp [h3],
        by simp [List.filter_cons, hc, h4]⟩

theorem back_popBack_concat (l : SList T) (c : Nat × T) :
    back (l ++ [c]) = some c.2 ∧ popBack (l ++ [c]) = some l := by
  constructor
  · simp [back]
  · cases l with
    | nil => simp [popBack]
    | cons d l =>
      simp only [popBack, List.cons_append]
      rw [← List.cons_append, List.dropLast_concat]

end SList

namespace UMap

variable {A B : Type} [DecidableEq A]

theorem mem_of_find {m : UMap A B} {k : A} {v : B} (h : find m k = some v) : (k, v) ∈ m := by
  induction m with
  | nil => simp [find] at h
  | cons p m ih =>
    obtain ⟨a, b⟩ := p
    by_cases h1 : a = k
    · simp only [find, h1, if_true, Option.some.injEq] at h
      simp [h1, h]
    · simp only [find, h1, if_false] at h
      exact List.mem_cons_of_mem _ (ih h)

theorem find_of_mem {m : UMap A B} {k : A} {v : B} (hn : (keys m).Nodup) (h : (k, v) ∈ m) :
    find m k = some v := by
  induction m with
  | nil => cases h
  | cons p m ih =>
    obtain ⟨a, b⟩ := p
    simp only [keys, List.map_cons, List.nodup_cons] at hn
    rcases List.mem_cons.1 h with h | h
    · simp only [Prod.mk.injEq] at h
      simp [find, h.1, h.2]
    · have hne : a ≠ k := fun e => hn.1 (e ▸ List.mem_map_of_mem Prod.fst h)
      simp only [find, hne, if_false]
      exact ih hn.2 h

theorem find_eq_none_of_not_mem_keys {m : UMap A B} {k : A} (h : k ∉ keys m) :
    find m k = none := by
  by_contra hc
  exact h ((mem_keys_iff m k).2 hc)

end UMap

/-! ## `LruCache`: the invariant and the effect of each method on `entries` -/

namespace LruCache

variable {K V : Type} [DecidableEq K]

theorem wf_new (cap : Nat) : WF (new cap : LruCache K V) :=
  ⟨by simp [new], by simp [new], by simp [new, UMap.keys], by simp [new, UMap.find],
    by simp [new]⟩

omit [DecidableEq K] in
theorem keys_entries (c : LruCache K V) :
    UMap.keys (entries c) = c.lru_list_.map (fun cl => cl.2.key) := by
  simp [UMap.keys, entries]

/-- Relinking the cell of `k` in front (with a possibly new value) keeps the
invariant and moves the pair of `k` to the head of `entries`. -/
theorem wf_moveFront {c : LruCache K V} (h : WF c) {it : Nat} {k : K} {v0 : V}
    (hm : (it, (⟨k, v0⟩ : LruCache.Node K V)) ∈ c.lru_list_) (v : V) :
    WF { c with lru_list_ :=
          (it, ⟨k, v⟩) :: c.lru_list_.filter (fun cl => !decide (cl.1 = it)) } ∧
    entries { c with lru_list_ :=
          (it, ⟨k, v⟩) :: c.lru_list_.filter (fun cl => !decide (cl.1 = it)) } =
      (k, v) :: (entries c).filter (fun e => !decide (e.1 = k)) := by
  have hkey : ∀ cl ∈ c.lru_list_, cl.1 = it ↔ cl.2.key = k := by
    intro cl hcl
    constructor
    · intro e
      have := List.inj_on_of_nodup_map h.addrs hcl hm e
      rw [this]
    · intro e
      have := List.inj_on_of_nodup_map h.keysL hcl hm e
      rw [this]
  have hsub : (c.lru_list_.filter (fun cl => !decide (cl.1 = it))).Sublist c.lru_list_ :=
    List.filter_sublist _
  refine ⟨⟨?_, ?_, h.keysM, ?_, ?_⟩, ?_⟩
  · simp only [List.map_cons, List.nodup_cons]
    refine ⟨?_, h.addrs.sublist (hsub.map _)⟩
    intro hin
    obtain ⟨cl, hcl, e⟩ := List.mem_map.1 hin
    simp [List.mem_filter] at hcl
    exact hcl.2 e
  · simp only [List.map_cons, List.nodup_cons]
    refine ⟨?_, h.keysL.sublist (hsub.map _)⟩
    intro hin
    obtain ⟨cl, hcl, e⟩ := List.mem_map.1 hin
    simp [List.mem_filter] at hcl
    exact hcl.2 ((hkey cl hcl.1).2 e)
  · intro k2 it2
    rw [h.link]
    constructor
    · rintro ⟨v2, hv2⟩
      by_cases e : it2 = it
      · have := (hkey _ hv2).1 e
        simp only at this
        subst this; subst e
        exact ⟨v, List.mem_cons_self _ _⟩
      · exact ⟨v2, List.mem_cons_of_mem _ (List.mem_filter.2 ⟨hv2, by simpa using e⟩)⟩
    · rintro ⟨v2, hv2⟩
      rcases List.mem_cons.1 hv2 with e | e
      · simp only [Prod.mk.injEq, LruCache.Node.mk.injEq] at e
        obtain ⟨e1, e2, -⟩ := e
        subst e1; subst e2
        exact ⟨v0, hm⟩
      · exact ⟨v2, (List.mem_filter.1 e).1⟩
  · have hlt : (c.lru_list_.filter (fun cl => !decide (cl.1 = it))).length
        < c.lru_list_.length := by
      rw [List.length_filter_lt_length_iff_exists]
      exact ⟨_, hm, by simp⟩
    have := h.bound
    simp only [List.length_cons]
    omega
  · simp only [entries, List.map_cons, List.filter_map]
    congr 1
    congr 1
    apply List.filter_congr
    intro cl hcl
    have := hkey cl hcl
    simp only [Function.comp]
    by_cases e : cl.1 = it
    · simp [e, this.1 e]
    · have e2 : ¬ cl.2.key = k := fun e2 => e (this.2 e2)
      simp [e, e2]

theorem WF.find_of_entry {c : LruCache K V} (h : WF c) {k : K} {v0 : V}
    (hf : UMap.find (entries c) k = some v0) :
    ∃ it, UMap.find c.cache_map_ k = some it ∧ (it, (⟨k, v0⟩ : LruCache.Node K V)) ∈ c.lru_list_ := by
  have hmem := UMap.mem_of_find hf
  simp only [entries, List.mem_map, Prod.mk.injEq] at hmem
  obtain ⟨cl, hcl, e1, e2⟩ := hmem
  obtain ⟨it, n⟩ := cl
  obtain ⟨nk, nv⟩ := n
  simp only at e1 e2
  subst e1; subst e2
  exact ⟨it, (h.link _ _).2 ⟨_, hcl⟩, hcl⟩

theorem WF.entry_of_find {c : LruCache K V} (h : WF c) {k : K} {it : Nat}
    (hf : UMap.find c.cache_map_ k = some it) :
    ∃ v0, (it, (⟨k, v0⟩ : LruCache.Node K V)) ∈ c.lru_list_ ∧ UMap.find (entries c) k = some v0 := by
  obtain ⟨v0, hv0⟩ := (h.link _ _).1 hf
  refine ⟨v0, hv0, UMap.find_of_mem ?_ ?_⟩
  · rw [keys_entries]; exact h.keysL
  · simp only [entries, List.mem_map]
    exact ⟨_, hv0, rfl⟩

theorem WF.find_none_iff {c : LruCache K V} (h : WF c) (k : K) :
    UMap.find c.cache_map_ k = none ↔ UMap.find (entries c) k = none := by
  constructor
  · intro hf
    by_contra hc
    obtain ⟨v0, hv0⟩ := Option.ne_none_iff_exists'.1 hc
    obtain ⟨it, hit, -⟩ := h.find_of_entry hv0
    rw [hf] at hit
    cases hit
  · intro hf
    by_contra hc
    obtain ⟨it, hit⟩ := Option.ne_none_iff_exists'.1 hc
    obtain ⟨v0, -, hv0⟩ := h.entry_of_find hit
    rw [hf] at hv0
    cases hv0

/-- A miss of `get` changes nothing. -/
theorem get_miss (c : LruCache K V) (k : K) (hf : UMap.find c.cache_map_ k = none) :
    get c k = some (c, none) := by
  simp [get, hf]

/-- Effect of a hit of `get` on a well-formed cache. -/
theorem get_hit {c : LruCache K V} (h : WF c) {k : K} {v0 : V}
    (hf : UMap.find (entries c) k = some v0) :
    ∃ c1, get c k = some (c1, some v0) ∧ WF c1 ∧ c1.capacity_ = c.capacity_ ∧
      entries c1 = (k, v0) :: (entries c).filter (fun e => !decide (e.1 = k)) := by
  obtain ⟨it, hit, hm⟩ := h.find_of_entry hf
  obtain ⟨hw, he⟩ := wf_moveFront h hm v0
  refine ⟨_, ?_, hw, rfl, he⟩
  simp [get, hit, SList.spliceFront_of_mem _ _ _ h.addrs hm, SList.deref]

/-- Effect of `put` on a key that is present. -/
theorem put_present {c : LruCache K V} (h : WF c) {k : K} {v0 : V} (v : V)
    (hf : UMap.find (entries c) k = some v0) :
    ∃ c1, put c k v = some c1 ∧ WF c1 ∧ c1.capacity_ = c.capacity_ ∧
      entries c1 = (k, v) :: (entries c).filter (fun e => !decide (e.1 = k)) := by
  obtain ⟨it, hit, hm⟩ := h.find_of_entry hf
  obtain ⟨hw, he⟩ := wf_moveFront h hm v
  refine ⟨_, ?_, hw, rfl, he⟩
  obtain ⟨hd, -⟩ := SList.deref_erase_of_mem _ _ _ h.addrs hm
  obtain ⟨l1, h1, h2, h3, h4⟩ := SList.assign_of_mem c.lru_list_ it _ (⟨k, v⟩ : LruCache.Node K V) hm
  have hs := SList.spliceFront_of_mem l1 it _ (h3 ▸ h.addrs) h2
  simp [put, hit, hd, h1, hs, h4]

/-- Effect of the "Evict if full" block when the capacity is positive. -/
theorem evictIfFull_spec {c : LruCache K V} (h : WF c) (hcap : 1 ≤ c.capacity_) :
    ∃ c1, evictIfFull c = some c1 ∧ WF c1 ∧ c1.capacity_ = c.capacity_ ∧
      c1.lru_list_.length < c.capacity_ ∧
      entries c1 = (if c.capacity_ ≤ (entries c).length then (entries c).dropLast
                    else entries c) ∧
      (∀ k, UMap.find c.cache_map_ k = none → UMap.find c1.cache_map_ k = none) := by
  have hlen : (entries c).length = c.lru_list_.length := by simp [entries]
  by_cases hfull : c.lru_list_.length ≥ c.capacity_
  · have hb := h.bound
    rcases List.eq_nil_or_concat c.lru_list_ with hnil | ⟨L, b, hL⟩
    · rw [hnil] at hfull; simp at hfull; omega
    · rw [List.concat_eq_append] at hL
      obtain ⟨hbk, hpop⟩ := SList.back_popBack_concat L b
      have haddrs := h.addrs
      have hkeys := h.keysL
      have hlink := h.link
      rw [hL] at haddrs hkeys hlink hb hfull
      simp only [List.map_append, List.map_cons, List.map_nil] at haddrs hkeys
      have hkeysL : (L.map (fun cl => cl.2.key)).Nodup := (List.nodup_append.1 hkeys).1
      have hbnot : b.2.key ∉ L.map (fun cl => cl.2.key) := by
        intro hin
        exact (List.nodup_append.1 hkeys).2.2 hin (List.mem_singleton_self _)
      refine ⟨{ c with cache_map_ := UMap.erase c.cache_map_ b.2.key, lru_list_ := L },
        ?_, ⟨(List.nodup_append.1 haddrs).1, hkeysL, UMap.nodup_keys_erase _ _ h.keysM, ?_, ?_⟩,
        rfl, ?_, ?_, ?_⟩
      · unfold evictIfFull
        rw [hL, if_pos hfull, hbk, hpop]
      · intro k it
        simp only
        rw [UMap.find_erase]
        by_cases e : b.2.key = k
        · simp only [e, if_true]
          constructor
          · intro hx; cases hx
          · rintro ⟨v, hv⟩
            exact absurd (List.mem_map.2 ⟨_, hv, by simp [e]⟩) hbnot
        · simp only [e, if_false, hlink, List.mem_append, List.mem_singleton]
          constructor
          · rintro ⟨v, hv | hv⟩
            · exact ⟨v, hv⟩
            · exact absurd (by rw [← hv]) e
          · rintro ⟨v, hv⟩
            exact ⟨v, Or.inl hv⟩
      · simp only [List.length_append, List.length_singleton] at hb
        simp only; omega
      · simp only [List.length_append, List.length_singleton] at hb
        simp only; omega
      · have : c.capacity_ ≤ (entries c).length := by rw [hlen]; rw [hL]; exact hfull
        simp only [this, if_true]
        simp [entries, hL]
      · intro k hk
        simp only
        rw [UMap.find_erase]
        split
        · rfl
        · exact hk
  · refine ⟨c, by simp [evictIfFull, hfull], h, rfl, by omega, ?_, fun _ hk => hk⟩
    have : ¬ c.capacity_ ≤ (entries c).length := by rw [hlen]; omega
    simp [this]

/-- Effect of `put` on a key that is absent, for a positive capacity. -/
theorem put_absent {c : LruCache K V} (h : WF c) (hcap : 1 ≤ c.capacity_) {k : K} (v : V)
    (hf : UMap.find (entries c) k = none) :
    ∃ c2, put c k v = some c2 ∧ WF c2 ∧ c2.capacity_ = c.capacity_ ∧
      entries c2 = (k, v) :: (if c.capacity_ ≤ (entries c).length then (entries c).dropLast
                              else entries c) := by
  have hfm : UMap.find c.cache_map_ k = none := (h.find_none_iff k).2 hf
  obtain ⟨c1, he, hw, hc, hlt, hent, hnone⟩ := evictIfFull_spec h hcap
  have hk1 : UMap.find c1.cache_map_ k = none := hnone k hfm
  have hknot : k ∉ c1.lru_list_.map (fun cl => cl.2.key) := by
    rw [← keys_entries, UMap.mem_keys_iff]
    simpa using (hw.find_none_iff k).1 hk1
  have hfresh := SList.fresh_not_mem c1.lru_list_
  refine ⟨{ c1 with
      lru_list_ := (SList.maxAddr c1.lru_list_ + 1, ⟨k, v⟩) :: c1.lru_list_,
      cache_map_ := UMap.set c1.cache_map_ k (SList.maxAddr c1.lru_list_ + 1) },
    ?_, ⟨?_, ?_, UMap.nodup_keys_set _ _ _ hw.keysM, ?_, ?_⟩, hc, ?_⟩
  · simp [put, hfm, he, SList.pushFront, SList.begin]
  · simp only [List.map_cons, List.nodup_cons]
    exact ⟨hfresh, hw.addrs⟩
  · simp only [List.map_cons, List.nodup_cons]
    exact ⟨hknot, hw.keysL⟩
  · intro k2 it2
    simp only
    rw [UMap.find_set]
    by_cases e : k = k2
    · subst e
      simp only [if_true, Option.some.injEq, List.mem_cons, Prod.mk.injEq, LruCache.Node.mk.injEq,
        true_and]
      constructor
      · intro hx
        exact ⟨v, Or.inl ⟨hx.symm, rfl⟩⟩
      · rintro ⟨v2, hv | hv⟩
        · exact hv.1.symm
        · exact absurd (List.mem_map.2 ⟨_, hv, rfl⟩) hknot
    · simp only [e, if_false, hw.link, List.mem_cons, Prod.mk.injEq, LruCache.Node.mk.injEq]
      constructor
      · rintro ⟨v2, hv⟩
        exact ⟨v2, Or.inr hv⟩
      · rintro ⟨v2, hv | hv⟩
        · exact absurd hv.2.1.symm e
        · exact ⟨v2, hv⟩
  · simp only [List.length_cons]; omega
  · simp only [entries, List.map_cons] at hent ⊢
    rw [hent]

/-- Every call succeeds on a well-formed cache of positive capacity and keeps
the invariant. -/
theorem step_wf {c : LruCache K V} (h : WF c) (hcap : 1 ≤ c.capacity_) (op : Op K V) :
    ∃ c1 r, step c op = some (c1, r) ∧ WF c1 ∧ c1.capacity_ = c.capacity_ := by
  cases op with
  | get k =>
    cases hf : UMap.find (entries c) k with
    | none => exact ⟨c, none, get_miss c k ((h.find_none_iff k).2 hf), h, rfl⟩
    | some v0 =>
      obtain ⟨c1, h1, h2, h3, -⟩ := get_hit h hf
      exact ⟨c1, some v0, h1, h2, h3⟩
  | put k v =>
    cases hf : UMap.find (entries c) k with
    | none =>
      obtain ⟨c1, h1, h2, h3, -⟩ := put_absent h hcap v hf
      exact ⟨c1, none, by simp [step, h1], h2, h3⟩
    | some v0 =>
      obtain ⟨c1, h1, h2, h3, -⟩ := put_present h v hf
      exact ⟨c1, none, by simp [step, h1], h2, h3⟩

theorem runFrom_wf {c : LruCache K V} (h : WF c) (hcap : 1 ≤ c.capacity_) (ops : List (Op K V)) :
    ∃ s rs, runFrom c ops = some (s, rs) ∧ WF s ∧ s.capacity_ = c.capacity_ := by
  induction ops generalizing c with
  | nil => exact ⟨c, [], rfl, h, rfl⟩
  | cons op ops ih =>
    obtain ⟨c1, r, h1, h2, h3⟩ := step_wf h hcap op
    obtain ⟨s, rs, h4, h5, h6⟩ := ih h2 (h3 ▸ hcap)
    exact ⟨s, r :: rs, by simp [runFrom, h1, h4], h5, h6.trans h3⟩

theorem runFrom_append (c : LruCache K V) (a b : List (Op K V)) :
    runFrom c (a ++ b) =
      match runFrom c a with
      | none => none
      | some (c1, r1) =>
        match runFrom c1 b with
        | none => none
        | some (c2, r2) => some (c2, r1 ++ r2) := by
  induction a generalizing c with
  | nil =>
    simp only [List.nil_append, runFrom]
    cases runFrom c b with
    | none => rfl
    | some x => rfl
  | cons op a ih =>
    rw [List.cons_append, runFrom, runFrom]
    cases step c op with
    | none => rfl
    | some x =>
      obtain ⟨c1, r⟩ := x
      simp only
      rw [ih]
      cases runFrom c1 a with
      | none => rfl
      | some y =>
        obtain ⟨c2, r2⟩ := y
        simp only
        cases runFrom c2 b with
        | none => rfl
        | some z => rfl

/-- In a well-formed cache the index and the order sequence have the same size. -/
theorem WF.size_eq {c : LruCache K V} (h : WF c) :
    UMap.size c.cache_map_ = c.lru_list_.length := by
  have hperm : (UMap.keys c.cache_map_).Perm (c.lru_list_.map (fun cl => cl.2.key)) := by
    rw [List.perm_ext_iff_of_nodup h.keysM h.keysL]
    intro k
    rw [UMap.mem_keys_iff, ← keys_entries, UMap.mem_keys_iff]
    exact not_congr (h.find_none_iff k)
  have := hperm.length_eq
  simpa [UMap.keys, UMap.size] using this

omit [DecidableEq K] in
theorem take_append_take (a b : List (K × V)) (n : Nat) :
    (a ++ b.take n).take n = (a ++ b).take n := by
  rw [List.take_append_eq_append_take, List.take_append_eq_append_take, List.take_take]
  congr 2
  omega

/-- Putting pairwise distinct keys, none of them present, into a well-formed
cache of positive capacity: the new pairs are stacked in front, and the order
sequence is cut at the capacity from the back. -/
theorem runFrom_puts {c : LruCache K V} (h : WF c) (hcap : 1 ≤ c.capacity_)
    (kvs : List (K × V)) (hnd : (kvs.map Prod.fst).Nodup)
    (hnew : ∀ p ∈ kvs, UMap.find (entries c) p.1 = none) :
    ∃ s, runFrom c (kvs.map (fun p => Op.put p.1 p.2)) =
        some (s, List.replicate kvs.length none) ∧
      WF s ∧ s.capacity_ = c.capacity_ ∧
      entries s = (kvs.reverse ++ entries c).take c.capacity_ := by
  induction kvs generalizing c with
  | nil =>
    refine ⟨c, rfl, h, rfl, ?_⟩
    have := h.bound
    simp only [List.reverse_nil, List.nil_append]
    rw [List.take_of_length_le]
    simpa [entries] using this
  | cons p kvs ih =>
    obtain ⟨k, v⟩ := p
    simp only [List.map_cons, List.nodup_cons] at hnd
    have hk : UMap.find (entries c) k = none := hnew (k, v) (List.mem_cons_self _ _)
    obtain ⟨c2, h1, h2, h3, h4⟩ := put_absent h hcap v hk
    have hlen : (entries c).length ≤ c.capacity_ := by simpa [entries] using h.bound
    have h4b : entries c2 = ((k, v) :: entries c).take c.capacity_ := by
      rw [h4]
      by_cases hfull : c.capacity_ ≤ (entries c).length
      · have e : (entries c).length = c.capacity_ := le_antisymm hlen hfull
        obtain ⟨n, hn⟩ : ∃ n, c.capacity_ = n + 1 := ⟨c.capacity_ - 1, by omega⟩
        simp only [hfull, if_true, hn, List.take_succ_cons]
        rw [List.dropLast_eq_take, e, hn]
        simp
      · simp only [hfull, if_false]
        rw [List.take_of_length_le]
        simp only [List.length_cons]; omega
    have hnew2 : ∀ q ∈ kvs, UMap.find (entries c2) q.1 = none := by
      intro q hq
      apply UMap.find_eq_none_of_not_mem_keys
      intro hin
      rw [h4b] at hin
      have hin2 : q.1 ∈ UMap.keys ((k, v) :: entries c) :=
        (List.Sublist.map Prod.fst (List.take_sublist _ _)).subset hin
      simp only [UMap.keys, List.map_cons, List.mem_cons] at hin2
      rcases hin2 with e | e
      · exact hnd.1 (e ▸ List.mem_map_of_mem Prod.fst hq)
      · have := hnew q (List.mem_cons_of_mem _ hq)
        exact (UMap.mem_keys_iff _ _).1 e this
    obtain ⟨s, h5, h6, h7, h8⟩ := ih h2 (h3 ▸ hcap) hnd.2 hnew2
    refine ⟨s, ?_, h6, h7.trans h3, ?_⟩
    · simp [runFrom, step, h1, h5, List.replicate_succ]
    · rw [h8, h3, h4b, take_append_take]
      simp

end LruCache

/-! ## Facts about `wrap32` -/

theorem wrap32_succ_ne (x : Int) : wrap32 (x + 1) ≠ x := by
  unfold wrap32
  omega

theorem wrap32_range (x : Int) : -2147483648 ≤ wrap32 x ∧ wrap32 x ≤ 2147483647 := by
  unfold wrap32
  omega

namespace UMap

variable {A B : Type} [DecidableEq A]

theorem erase_set (m : UMap A B) (k : A) (v : B) : erase (set m k v) k = erase m k := by
  induction m with
  | nil => simp [set, erase]
  | cons p m ih =>
    obtain ⟨a, b⟩ := p
    by_cases h1 : a = k <;> simp [set, erase, h1, ih]

theorem nodup_keys_ensure [Inhabited B] (m : UMap A B) (k : A) (h : (keys m).Nodup) :
    (keys (ensure m k)).Nodup := by
  unfold ensure
  split
  · exact h
  · exact nodup_keys_set _ _ _ h

end UMap

namespace LfuCache

variable {K V : Type} [DecidableEq K] [Inhabited V]

omit [DecidableEq K] in
theorem le_maxAddr {m : UMap Int (SList K)} {f : Int} {t : SList K} {cl : Nat × K}
    (hf : UMap.find m f = some t) (hc : cl ∈ t) : cl.1 ≤ maxAddr m := by
  induction m with
  | nil => simp [UMap.find] at hf
  | cons p m ih =>
    obtain ⟨a, l⟩ := p
    simp only [maxAddr]
    by_cases h1 : a = f
    · simp only [UMap.find, h1, if_true, Option.some.injEq] at hf
      subst hf
      exact le_trans (SList.le_maxAddr_of_mem hc) (le_max_left _ _)
    · simp only [UMap.find, h1, if_false] at hf
      exact le_trans (ih hf) (le_max_right _ _)

theorem find_shrinkTier (m : UMap Int (SList K)) (f g : Int) (l : SList K) :
    UMap.find (shrinkTier m f l) g =
      if f = g then (if l = [] then none else some l) else UMap.find m g := by
  unfold shrinkTier
  cases l with
  | nil => simp [UMap.find_erase]
  | cons a l => simp [UMap.find_set]

omit [DecidableEq K] in
theorem find_pushKey (m : UMap Int (SList K)) (f g : Int) (key : K) :
    UMap.find (pushKey m f key) g =
      if f = g then some ((maxAddr m + 1, key) :: UMap.read m f) else UMap.find m g := by
  simp [pushKey, UMap.find_set, SList.pushFront]

omit [DecidableEq K] in
theorem nodup_keys_shrinkTier (m : UMap Int (SList K)) (f : Int) (l : SList K)
    (h : (UMap.keys m).Nodup) : (UMap.keys (shrinkTier m f l)).Nodup := by
  unfold shrinkTier
  split
  · exact UMap.nodup_keys_erase _ _ h
  · exact UMap.nodup_keys_set _ _ _ h

/-- Explicit form of `touch` when the key is live and its iterator designates
its cell in the tier of its frequency. -/
theorem touch_eq (c : LfuCache K V) (key : K) {n : LfuCache.Node V} {it : Nat} {t : SList K}
    (hkv : UMap.find c.key_to_val_ key = some n)
    (hki : UMap.find c.key_to_iter_ key = some it)
    (hft : UMap.find c.freq_to_keys_ n.freq = some t)
    (hmem : (it, key) ∈ t) (hnd : (t.map Prod.fst).Nodup) :
    touch c key = some
      { c with
        min_freq_ :=
          if t.filter (fun cl => !decide (cl.1 = it)) = [] ∧ c.min_freq_ = n.freq
          then wrap32 (c.min_freq_ + 1) else c.min_freq_
        key_to_val_ := UMap.set c.key_to_val_ key { n with freq := wrap32 (n.freq + 1) }
        freq_to_keys_ :=
          pushKey (shrinkTier c.freq_to_keys_ n.freq (t.filter (fun cl => !decide (cl.1 = it))))
            (wrap32 (n.freq + 1)) key
        key_to_iter_ := UMap.set c.key_to_iter_ key
          (maxAddr (shrinkTier c.freq_to_keys_ n.freq
            (t.filter (fun cl => !decide (cl.1 = it)))) + 1) } := by
  obtain ⟨-, he⟩ := SList.deref_erase_of_mem t it key hnd hmem
  unfold touch
  simp only [UMap.ensure_of_find hkv, UMap.read_of_find hkv, UMap.ensure_of_find hft,
    UMap.read_of_find hft, UMap.ensure_of_find hki, UMap.read_of_find hki, he]
  have hb : SList.begin (UMap.read (pushKey (shrinkTier c.freq_to_keys_ n.freq
      (t.filter (fun cl => !decide (cl.1 = it)))) (wrap32 (n.freq + 1)) key) (wrap32 (n.freq + 1))) =
      maxAddr (shrinkTier c.freq_to_keys_ n.freq
        (t.filter (fun cl => !decide (cl.1 = it)))) + 1 := by
    simp [UMap.read, find_pushKey, SList.begin]
  have hs : (if (t.filter (fun cl => !decide (cl.1 = it))).isEmpty = true then
        UMap.erase (UMap.set c.freq_to_keys_ n.freq (t.filter (fun cl => !decide (cl.1 = it))))
          n.freq
      else UMap.set c.freq_to_keys_ n.freq (t.filter (fun cl => !decide (cl.1 = it)))) =
      shrinkTier c.freq_to_keys_ n.freq (t.filter (fun cl => !decide (cl.1 = it))) := by
    unfold shrinkTier
    split
    · rw [UMap.erase_set]
    · rfl
  rw [hs, hb]
  simp only [List.isEmpty_iff]

end LfuCache

/-! ## `LfuCache`: `touch` keeps the invariant -/

namespace LfuCache

variable {K V : Type} [DecidableEq K] [Inhabited V]

omit [Inhabited V] in
/-- Two cells of one tier with the same address are the same cell. -/
theorem Core.cell_unique {c : LfuCache K V} (hc : Core c) {f : Int} {t : SList K}
    (hft : UMap.find c.freq_to_keys_ f = some t) {a b : Nat × K} (ha : a ∈ t) (hb : b ∈ t)
    (e : a.1 = b.1) : a = b :=
  List.inj_on_of_nodup_map (hc.tier f t hft).2.1 ha hb e

omit [Inhabited V] in
/-- The state built by `touch` satisfies `Core`. -/
theorem core_touch {c : LfuCache K V} (hc : Core c) {key : K} {n : LfuCache.Node V} {it : Nat}
    {t : SList K}
    (hkv : UMap.find c.key_to_val_ key = some n)
    (hki : UMap.find c.key_to_iter_ key = some it)
    (hft : UMap.find c.freq_to_keys_ n.freq = some t)
    (hmem : (it, key) ∈ t) (mf : Int) :
    Core { c with
        min_freq_ := mf
        key_to_val_ := UMap.set c.key_to_val_ key { n with freq := wrap32 (n.freq + 1) }
        freq_to_keys_ :=
          pushKey (shrinkTier c.freq_to_keys_ n.freq (t.filter (fun cl => !decide (cl.1 = it))))
            (wrap32 (n.freq + 1)) key
        key_to_iter_ := UMap.set c.key_to_iter_ key
          (maxAddr (shrinkTier c.freq_to_keys_ n.freq
            (t.filter (fun cl => !decide (cl.1 = it)))) + 1) } := by
  obtain ⟨-, hnd, hcells⟩ := hc.tier _ _ hft
  have hsh := find_shrinkTier c.freq_to_keys_ n.freq
  have hfresh : ∀ g tg cl, UMap.find (shrinkTier c.freq_to_keys_ n.freq
      (t.filter (fun cl => !decide (cl.1 = it)))) g = some tg → cl ∈ tg →
      cl.1 ≠ maxAddr (shrinkTier c.freq_to_keys_ n.freq
        (t.filter (fun cl => !decide (cl.1 = it)))) + 1 := by
    intro g tg cl h1 h2
    have := le_maxAddr h1 h2
    omega
  have hkf := nodup_keys_shrinkTier c.freq_to_keys_ n.freq
    (t.filter (fun cl => !decide (cl.1 = it))) hc.keysF
  have hsh2 := fun g => hsh g (t.filter (fun cl => !decide (cl.1 = it)))
  clear hsh
  generalize shrinkTier c.freq_to_keys_ n.freq (t.filter (fun cl => !decide (cl.1 = it))) = ft3
    at hsh2 hfresh hkf ⊢
  have hne : wrap32 (n.freq + 1) ≠ n.freq := wrap32_succ_ne n.freq
  -- a live key other than `key` keeps its frequency, so it is not `key`
  have hother : ∀ k0 n0, UMap.find c.key_to_val_ k0 = some n0 → n0.freq ≠ n.freq → key ≠ k0 := by
    intro k0 n0 h0 hfr e
    subst e
    rw [hkv] at h0
    cases h0
    exact hfr rfl
  refine ⟨UMap.nodup_keys_set _ _ _ hc.keysV, UMap.nodup_keys_set _ _ _ hc.keysI,
    UMap.nodup_keys_set _ _ _ hkf, ?_, ?_, ?_⟩
  · intro k n1 hk
    simp only at hk ⊢
    rw [UMap.find_set] at hk
    by_cases e : key = k
    · subst e
      simp only [if_true, Option.some.injEq] at hk
      subst hk
      exact ⟨_, (maxAddr ft3 + 1, key) :: UMap.read ft3 (wrap32 (n.freq + 1)), UMap.find_set_self _ _ _,
        by rw [find_pushKey, if_pos rfl], List.mem_cons_self _ _⟩
    · simp only [e, if_false] at hk
      obtain ⟨it0, t0, h1, h2, h3⟩ := hc.live k n1 hk
      rw [UMap.find_set_ne _ _ e]
      by_cases e1 : n1.freq = wrap32 (n.freq + 1)
      · refine ⟨it0, (maxAddr ft3 + 1, key) :: UMap.read ft3 (wrap32 (n.freq + 1)), h1,
          by rw [find_pushKey, e1, if_pos rfl], List.mem_cons_of_mem _ ?_⟩
        have : UMap.find ft3 (wrap32 (n.freq + 1)) = some t0 := by
          rw [hsh2, if_neg (Ne.symm hne), ← e1]; exact h2
        rw [UMap.read_of_find this]; exact h3
      · by_cases e2 : n1.freq = n.freq
        · rw [e2, hft] at h2
          cases h2
          have hit : it0 ≠ it := by
            intro e3
            have := hc.cell_unique hft h3 hmem e3
            simp only [Prod.mk.injEq] at this
            exact e this.2.symm
          have hin : (it0, k) ∈ t.filter (fun cl => !decide (cl.1 = it)) :=
            List.mem_filter.2 ⟨h3, by simpa using hit⟩
          refine ⟨it0, _, h1, ?_, hin⟩
          rw [find_pushKey, if_neg (by rw [e2]; exact hne), e2, hsh2, if_pos rfl, if_neg]
          exact List.ne_nil_of_mem hin
        · refine ⟨it0, t0, h1, ?_, h3⟩
          rw [find_pushKey, if_neg (Ne.symm e1), hsh2, if_neg (Ne.symm e2)]
          exact h2
  · intro f t1 h1
    simp only at h1 ⊢
    rw [find_pushKey] at h1
    by_cases e1 : wrap32 (n.freq + 1) = f
    · subst e1
      simp only [if_true, Option.some.injEq] at h1
      subst h1
      have hrd : UMap.read ft3 (wrap32 (n.freq + 1)) = [] ∨
          UMap.find c.freq_to_keys_ (wrap32 (n.freq + 1)) = some (UMap.read ft3 (wrap32 (n.freq + 1))) := by
        cases h0 : UMap.find ft3 (wrap32 (n.freq + 1)) with
        | none => left; simp only [UMap.read, h0]; rfl
        | some t0 =>
          right
          rw [UMap.read_of_find h0, ← h0, hsh2, if_neg (Ne.symm hne)]
      refine ⟨by simp, ?_, ?_⟩
      · simp only [List.map_cons, List.nodup_cons]
        constructor
        · intro hin
          obtain ⟨cl, hcl, ecl⟩ := List.mem_map.1 hin
          cases h0 : UMap.find ft3 (wrap32 (n.freq + 1)) with
          | none =>
            simp only [UMap.read, h0] at hcl
            exact absurd hcl (List.not_mem_nil _)
          | some t0 =>
            rw [UMap.read_of_find h0] at hcl
            exact hfresh _ _ _ h0 hcl ecl
        · rcases hrd with h0 | h0
          · rw [h0]; simp
          · exact (hc.tier _ _ h0).2.1
      · intro it0 k0 hin
        rcases List.mem_cons.1 hin with h0 | h0
        · simp only [Prod.mk.injEq] at h0
          obtain ⟨rfl, rfl⟩ := h0
          exact ⟨UMap.find_set_self _ _ _, _, UMap.find_set_self _ _ _, rfl⟩
        · rcases hrd with h2 | h2
          · rw [h2] at h0; cases h0
          · obtain ⟨h3, n0, h4, h5⟩ := (hc.tier _ _ h2).2.2 it0 k0 h0
            have hk0 : key ≠ k0 := hother k0 n0 h4 (by rw [h5]; exact hne)
            exact ⟨by rw [UMap.find_set_ne _ _ hk0]; exact h3, n0,
              by rw [UMap.find_set_ne _ _ hk0]; exact h4, h5⟩
    · rw [if_neg e1, hsh2] at h1
      by_cases e2 : n.freq = f
      · subst e2
        rw [if_pos rfl] at h1
        split at h1
        · cases h1
        · rename_i hne2
          simp only [Option.some.injEq] at h1
          subst h1
          refine ⟨hne2, hnd.sublist ((List.filter_sublist _).map _), ?_⟩
          intro it0 k0 hin
          obtain ⟨hin1, hin2⟩ := List.mem_filter.1 hin
          obtain ⟨h3, n0, h4, h5⟩ := hcells it0 k0 hin1
          have hk0 : key ≠ k0 := by
            intro e
            subst e
            rw [hki] at h3
            cases h3
            simp at hin2
          exact ⟨by rw [UMap.find_set_ne _ _ hk0]; exact h3, n0,
            by rw [UMap.find_set_ne _ _ hk0]; exact h4, h5⟩
      · rw [if_neg e2] at h1
        obtain ⟨h6, h8, h9⟩ := hc.tier _ _ h1
        refine ⟨h6, h8, ?_⟩
        intro it0 k0 hin
        obtain ⟨h3, n0, h4, h5⟩ := h9 it0 k0 hin
        have hk0 : key ≠ k0 := hother k0 n0 h4 (by rw [h5]; exact Ne.symm e2)
        exact ⟨by rw [UMap.find_set_ne _ _ hk0]; exact h3, n0,
          by rw [UMap.find_set_ne _ _ hk0]; exact h4, h5⟩
  · intro k hk
    simp only at hk ⊢
    rw [UMap.find_set] at hk
    by_cases e : key = k
    · simp [e] at hk
    · simp only [e, if_false] at hk
      rw [UMap.find_set_ne _ _ e]
      exact hc.iter k hk

end LfuCache

namespace LfuCache

variable {K V : Type} [DecidableEq K] [Inhabited V]

/-- On a live key `touch` succeeds, keeps the invariant, and changes the
records only by the `int` increment of the frequency of the key. -/
theorem touch_inv {c : LfuCache K V} (h : Inv c) {key : K} {n : LfuCache.Node V}
    (hkv : UMap.find c.key_to_val_ key = some n) :
    ∃ c1, touch c key = some c1 ∧ Inv c1 ∧ c1.capacity_ = c.capacity_ ∧
      c1.key_to_val_ = UMap.set c.key_to_val_ key { n with freq := wrap32 (n.freq + 1) } := by
  obtain ⟨it, t, hki, hft, hmem⟩ := h.core.live key n hkv
  obtain ⟨-, hnd, -⟩ := h.core.tier _ _ hft
  have hcore := core_touch h.core hkv hki hft hmem
    (if t.filter (fun cl => !decide (cl.1 = it)) = [] ∧ c.min_freq_ = n.freq
      then wrap32 (c.min_freq_ + 1) else c.min_freq_)
  refine ⟨_, touch_eq c key hkv hki hft hmem hnd, ⟨hcore, ?_, ?_, ?_⟩, rfl, rfl⟩
  · have := h.bound
    simp only [UMap.size_set, hkv, Option.isSome_some, if_true]
    exact this
  · intro _
    have hne : c.key_to_val_ ≠ [] := by
      intro e
      rw [e] at hkv
      simp [UMap.find] at hkv
    have hm1 := h.minf hne
    simp only
    by_cases hcase : t.filter (fun cl => !decide (cl.1 = it)) = [] ∧ c.min_freq_ = n.freq
    · rw [if_pos hcase]
      obtain ⟨hc1, hc2⟩ := hcase
      rw [find_pushKey, hc2, if_pos rfl]; rfl
    · rw [if_neg hcase, find_pushKey]
      by_cases e1 : wrap32 (n.freq + 1) = c.min_freq_
      · rw [if_pos e1]; rfl
      · rw [if_neg e1, find_shrinkTier]
        by_cases e2 : n.freq = c.min_freq_
        · rw [if_pos e2, if_neg]
          · rfl
          · intro e3
            exact hcase ⟨e3, e2.symm⟩
        · rw [if_neg e2]
          exact hm1
  · intro k n1 hk
    simp only at hk
    rw [UMap.find_set] at hk
    by_cases e : key = k
    · rw [if_pos e] at hk
      cases hk
      exact wrap32_range _
    · rw [if_neg e] at hk
      exact h.range k n1 hk

end LfuCache

/-! ## `LfuCache`: `evict` and the insertion of a new key -/

namespace LfuCache

variable {K V : Type} [DecidableEq K] [Inhabited V]

omit [Inhabited V] in
/-- Explicit form of `evict` when the tier of `min_freq_` ends with the cell
`(it, k)`. -/
theorem evict_eq (c : LfuCache K V) {L : SList K} {it : Nat} {k : K}
    (hft : UMap.find c.freq_to_keys_ c.min_freq_ = some (L ++ [(it, k)])) :
    evict c = some
      { c with
        freq_to_keys_ := shrinkTier c.freq_to_keys_ c.min_freq_ L
        key_to_val_ := UMap.erase c.key_to_val_ k
        key_to_iter_ := UMap.erase c.key_to_iter_ k } := by
  obtain ⟨hb, hp⟩ := SList.back_popBack_concat L (it, k)
  unfold evict
  simp only [UMap.ensure_of_find hft, UMap.read_of_find hft, hb, hp]
  have hs : (if L.isEmpty = true then UMap.erase (UMap.set c.freq_to_keys_ c.min_freq_ L)
        c.min_freq_ else UMap.set c.freq_to_keys_ c.min_freq_ L) =
      shrinkTier c.freq_to_keys_ c.min_freq_ L := by
    unfold shrinkTier
    split
    · rw [UMap.erase_set]
    · rfl
  rw [hs]

omit [Inhabited V] in
/-- The state built by `evict` satisfies `Core`. -/
theorem core_evict {c : LfuCache K V} (hc : Core c) {L : SList K} {it : Nat} {k : K}
    (hft : UMap.find c.freq_to_keys_ c.min_freq_ = some (L ++ [(it, k)])) :
    Core { c with
        freq_to_keys_ := shrinkTier c.freq_to_keys_ c.min_freq_ L
        key_to_val_ := UMap.erase c.key_to_val_ k
        key_to_iter_ := UMap.erase c.key_to_iter_ k } := by
  obtain ⟨-, hnd, hcells⟩ := hc.tier _ _ hft
  obtain ⟨hki, n, hkv, hnf⟩ := hcells it k (by simp)
  have hitL : it ∉ L.map Prod.fst := by
    intro hin
    rw [List.map_append, List.nodup_append] at hnd
    exact hnd.2.2 hin (by simp)
  refine ⟨UMap.nodup_keys_erase _ _ hc.keysV, UMap.nodup_keys_erase _ _ hc.keysI,
    nodup_keys_shrinkTier _ _ _ hc.keysF, ?_, ?_, ?_⟩
  · intro k1 n1 hk1
    simp only at hk1 ⊢
    rw [UMap.find_erase] at hk1
    by_cases e : k = k1
    · simp [e] at hk1
    · simp only [e, if_false] at hk1
      obtain ⟨it0, t0, h1, h2, h3⟩ := hc.live k1 n1 hk1
      rw [UMap.find_erase_ne _ e]
      by_cases e2 : c.min_freq_ = n1.freq
      · rw [← e2, hft] at h2
        cases h2
        have hin : (it0, k1) ∈ L := by
          rcases List.mem_append.1 h3 with h4 | h4
          · exact h4
          · simp only [List.mem_singleton, Prod.mk.injEq] at h4
            exact absurd h4.2.symm e
        refine ⟨it0, L, h1, ?_, hin⟩
        rw [find_shrinkTier, if_pos e2, if_neg (List.ne_nil_of_mem hin)]
      · refine ⟨it0, t0, h1, ?_, h3⟩
        rw [find_shrinkTier, if_neg e2]
        exact h2
  · intro f t1 h1
    simp only at h1 ⊢
    rw [find_shrinkTier] at h1
    by_cases e2 : c.min_freq_ = f
    · rw [if_pos e2] at h1
      split at h1
      · cases h1
      · rename_i hne
        simp only [Option.some.injEq] at h1
        subst h1
        refine ⟨hne, ?_, ?_⟩
        · rw [List.map_append, List.nodup_append] at hnd
          exact hnd.1
        · intro it0 k0 hin
          obtain ⟨h3, n0, h4, h5⟩ := hcells it0 k0 (List.mem_append_left _ hin)
          have hk0 : k ≠ k0 := by
            intro e
            subst e
            rw [hki] at h3
            cases h3
            exact hitL (List.mem_map_of_mem Prod.fst hin)
          exact ⟨by rw [UMap.find_erase_ne _ hk0]; exact h3, n0,
            by rw [UMap.find_erase_ne _ hk0]; exact h4, e2 ▸ h5⟩
    · rw [if_neg e2] at h1
      obtain ⟨h6, h8, h9⟩ := hc.tier _ _ h1
      refine ⟨h6, h8, ?_⟩
      intro it0 k0 hin
      obtain ⟨h3, n0, h4, h5⟩ := h9 it0 k0 hin
      have hk0 : k ≠ k0 := by
        intro e
        subst e
        rw [hkv] at h4
        cases h4
        exact e2 (hnf.symm.trans h5)
      exact ⟨by rw [UMap.find_erase_ne _ hk0]; exact h3, n0,
        by rw [UMap.find_erase_ne _ hk0]; exact h4, h5⟩
  · intro k1 hk1
    simp only at hk1 ⊢
    rw [UMap.find_erase] at hk1 ⊢
    by_cases e : k = k1
    · simp [e]
    · simp only [e, if_false] at hk1 ⊢
      exact hc.iter k1 hk1

omit [DecidableEq K] in
theorem begin_read_pushKey (m : UMap Int (SList K)) (f : Int) (key : K) :
    SList.begin (UMap.read (pushKey m f key) f) = maxAddr m + 1 := by
  simp [UMap.read, find_pushKey, SList.begin]

omit [Inhabited V] in
/-- The state built by the insertion of a new key at the end of `put`
satisfies `Core`. -/
theorem core_insert {c : LfuCache K V} (hc : Core c) {key : K} (value : V)
    (hkv : UMap.find c.key_to_val_ key = none) :
    Core (insertNew c key value) := by
  unfold insertNew
  simp only [begin_read_pushKey]
  have hother : ∀ k0 n0, UMap.find c.key_to_val_ k0 = some n0 → key ≠ k0 := by
    intro k0 n0 h0 e
    subst e
    rw [hkv] at h0
    cases h0
  refine ⟨UMap.nodup_keys_set _ _ _ hc.keysV, UMap.nodup_keys_set _ _ _ hc.keysI,
    UMap.nodup_keys_set _ _ _ hc.keysF, ?_, ?_, ?_⟩
  · intro k n1 hk
    simp only at hk ⊢
    rw [UMap.find_set] at hk
    by_cases e : key = k
    · subst e
      simp only [if_true, Option.some.injEq] at hk
      subst hk
      exact ⟨_, (maxAddr c.freq_to_keys_ + 1, key) :: UMap.read c.freq_to_keys_ 1,
        UMap.find_set_self _ _ _, by rw [find_pushKey, if_pos rfl], List.mem_cons_self _ _⟩
    · simp only [e, if_false] at hk
      obtain ⟨it0, t0, h1, h2, h3⟩ := hc.live k n1 hk
      rw [UMap.find_set_ne _ _ e]
      by_cases e1 : 1 = n1.freq
      · refine ⟨it0, (maxAddr c.freq_to_keys_ + 1, key) :: UMap.read c.freq_to_keys_ 1, h1,
          by rw [find_pushKey, if_pos e1], List.mem_cons_of_mem _ ?_⟩
        rw [← e1] at h2
        rw [UMap.read_of_find h2]; exact h3
      · refine ⟨it0, t0, h1, ?_, h3⟩
        rw [find_pushKey, if_neg e1]
        exact h2
  · intro f t1 h1
    simp only at h1 ⊢
    rw [find_pushKey] at h1
    by_cases e1 : 1 = f
    · subst e1
      simp only [if_true, Option.some.injEq] at h1
      subst h1
      refine ⟨by simp, ?_, ?_⟩
      · simp only [List.map_cons, List.nodup_cons]
        cases h0 : UMap.find c.freq_to_keys_ 1 with
        | none =>
          simp only [UMap.read, h0]
          exact ⟨List.not_mem_nil _, List.nodup_nil⟩
        | some t0 =>
          rw [UMap.read_of_find h0]
          refine ⟨?_, (hc.tier _ _ h0).2.1⟩
          intro hin
          obtain ⟨cl, hcl, ecl⟩ := List.mem_map.1 hin
          have := le_maxAddr h0 hcl
          omega
      · intro it0 k0 hin
        rcases List.mem_cons.1 hin with h0 | h0
        · simp only [Prod.mk.injEq] at h0
          obtain ⟨rfl, rfl⟩ := h0
          exact ⟨UMap.find_set_self _ _ _, _, UMap.find_set_self _ _ _, rfl⟩
        · cases h2 : UMap.find c.freq_to_keys_ 1 with
          | none =>
            simp only [UMap.read, h2] at h0
            exact absurd h0 (List.not_mem_nil _)
          | some t0 =>
            rw [UMap.read_of_find h2] at h0
            obtain ⟨h3, n0, h4, h5⟩ := (hc.tier _ _ h2).2.2 it0 k0 h0
            have hk0 : key ≠ k0 := hother k0 n0 h4
            exact ⟨by rw [UMap.find_set_ne _ _ hk0]; exact h3, n0,
              by rw [UMap.find_set_ne _ _ hk0]; exact h4, h5⟩
    · rw [if_neg e1] at h1
      obtain ⟨h6, h8, h9⟩ := hc.tier _ _ h1
      refine ⟨h6, h8, ?_⟩
      intro it0 k0 hin
      obtain ⟨h3, n0, h4, h5⟩ := h9 it0 k0 hin
      have hk0 : key ≠ k0 := hother k0 n0 h4
      exact ⟨by rw [UMap.find_set_ne _ _ hk0]; exact h3, n0,
        by rw [UMap.find_set_ne _ _ hk0]; exact h4, h5⟩
  · intro k hk
    simp only at hk ⊢
    rw [UMap.find_set] at hk
    by_cases e : key = k
    · simp [e] at hk
    · simp only [e, if_false] at hk
      rw [UMap.find_set_ne _ _ e]
      exact hc.iter k hk

end LfuCache

/-! ## `LfuCache`: the effect of `get` and `put` -/

namespace LfuCache

variable {K V : Type} [DecidableEq K] [Inhabited V]

omit [Inhabited V] in
theorem inv_new (cap : Nat) : Inv (new cap : LfuCache K V) := by
  refine ⟨⟨by simp [new, UMap.keys], by simp [new, UMap.keys], by simp [new, UMap.keys],
    ?_, ?_, ?_⟩, by simp [new, UMap.size], by simp [new], ?_⟩
  · intro k n h; simp [new, UMap.find] at h
  · intro f t h; simp [new, UMap.find] at h
  · intro k _; simp [new, UMap.find]
  · intro k n h; simp [new, UMap.find] at h

omit [Inhabited V] in
/-- Overwriting the value of a live key keeps the invariant. -/
theorem inv_setValue {c : LfuCache K V} (h : Inv c) {key : K} {n : LfuCache.Node V} (value : V)
    (hkv : UMap.find c.key_to_val_ key = some n) :
    Inv { c with key_to_val_ := UMap.set c.key_to_val_ key { n with value := value } } := by
  refine ⟨⟨UMap.nodup_keys_set _ _ _ h.core.keysV, h.core.keysI, h.core.keysF, ?_, ?_, ?_⟩,
    ?_, ?_, ?_⟩
  · intro k n1 hk
    simp only at hk ⊢
    rw [UMap.find_set] at hk
    by_cases e : key = k
    · subst e
      simp only [if_true, Option.some.injEq] at hk
      subst hk
      exact h.core.live key n hkv
    · simp only [e, if_false] at hk
      exact h.core.live k n1 hk
  · intro f t hft
    obtain ⟨h1, h3, h4⟩ := h.core.tier f t hft
    refine ⟨h1, h3, ?_⟩
    intro it0 k0 hin
    obtain ⟨h5, n0, h6, h7⟩ := h4 it0 k0 hin
    refine ⟨h5, ?_⟩
    simp only
    rw [UMap.find_set]
    by_cases e : key = k0
    · subst e
      rw [hkv] at h6
      cases h6
      exact ⟨{ n with value := value }, by rw [if_pos rfl], h7⟩
    · exact ⟨n0, by rw [if_neg e]; exact h6, h7⟩
  · intro k hk
    simp only at hk
    rw [UMap.find_set] at hk
    by_cases e : key = k
    · simp [e] at hk
    · simp only [e, if_false] at hk
      exact h.core.iter k hk
  · have := h.bound
    simp only [UMap.size_set, hkv, Option.isSome_some, if_true]
    exact this
  · intro _
    apply h.minf
    intro e
    rw [e] at hkv
    simp [UMap.find] at hkv
  · intro k n1 hk
    simp only at hk
    rw [UMap.find_set] at hk
    by_cases e : key = k
    · rw [if_pos e] at hk
      cases hk
      exact h.range key n hkv
    · rw [if_neg e] at hk
      exact h.range k n1 hk

/-- A miss of `get` changes nothing. -/
theorem lfu_get_miss (c : LfuCache K V) (key : K) (hkv : UMap.find c.key_to_val_ key = none) :
    get c key = some (c, none) := by
  simp [get, hkv]

/-- Effect of a hit of `get`: the stored value is returned and the state is
the one built by `touch`. -/
theorem lfu_get_hit {c : LfuCache K V} (h : Inv c) {key : K} {n : LfuCache.Node V}
    (hkv : UMap.find c.key_to_val_ key = some n) :
    ∃ c1, get c key = some (c1, some n.value) ∧ touch c key = some c1 ∧ Inv c1 ∧
      c1.capacity_ = c.capacity_ ∧
      c1.key_to_val_ = UMap.set c.key_to_val_ key { n with freq := wrap32 (n.freq + 1) } := by
  obtain ⟨c1, h1, h2, h3, h4⟩ := touch_inv h hkv
  have hf : UMap.find c1.key_to_val_ key = some { n with freq := wrap32 (n.freq + 1) } := by
    rw [h4]; exact UMap.find_set_self _ _ _
  refine ⟨c1, ?_, h1, h2, h3, h4⟩
  simp only [get, hkv, h1, UMap.ensure_of_find hf, UMap.read_of_find hf]

/-- Effect of `put` on a live key: the state is the one built by `touch` after
the value was overwritten. -/
theorem lfu_put_present {c : LfuCache K V} (h : Inv c) (hcap : c.capacity_ ≠ 0) {key : K}
    {n : LfuCache.Node V} (value : V) (hkv : UMap.find c.key_to_val_ key = some n) :
    ∃ c1, put c key value = some c1 ∧ Inv c1 ∧ c1.capacity_ = c.capacity_ ∧
      c1.key_to_val_ = UMap.set c.key_to_val_ key ⟨value, wrap32 (n.freq + 1)⟩ := by
  have h0 := inv_setValue h value hkv
  have hf : UMap.find (UMap.set c.key_to_val_ key { n with value := value }) key =
      some { n with value := value } := UMap.find_set_self _ _ _
  obtain ⟨c1, h1, h2, h3, h4⟩ := @touch_inv K V _ _ _ h0 key _ hf
  refine ⟨c1, ?_, h2, h3, ?_⟩
  · simp only [put, hcap, if_false, hkv, UMap.read_of_find hkv]
    exact h1
  · rw [h4]
    simp only
    rw [UMap.set_set]

omit [Inhabited V] in
/-- On a non-empty well-formed cache `evict` succeeds: it removes the key of
the last cell of the tier of `min_freq_`. -/
theorem evict_spec {c : LfuCache K V} (h : Inv c) (hne : c.key_to_val_ ≠ []) :
    ∃ L it e n, UMap.find c.freq_to_keys_ c.min_freq_ = some (L ++ [(it, e)]) ∧
      UMap.find c.key_to_val_ e = some n ∧ n.freq = c.min_freq_ ∧
      evict c = some { c with
        freq_to_keys_ := shrinkTier c.freq_to_keys_ c.min_freq_ L
        key_to_val_ := UMap.erase c.key_to_val_ e
        key_to_iter_ := UMap.erase c.key_to_iter_ e } ∧
      Core { c with
        freq_to_keys_ := shrinkTier c.freq_to_keys_ c.min_freq_ L
        key_to_val_ := UMap.erase c.key_to_val_ e
        key_to_iter_ := UMap.erase c.key_to_iter_ e } := by
  have hm1 := h.minf hne
  obtain ⟨t, ht⟩ := Option.isSome_iff_exists.1 hm1
  obtain ⟨htne, -, hcells⟩ := h.core.tier _ _ ht
  rcases List.eq_nil_or_concat t with hnil | ⟨L, b, hL⟩
  · exact absurd hnil htne
  · rw [List.concat_eq_append] at hL
    obtain ⟨it, e⟩ := b
    subst hL
    obtain ⟨-, n, hn1, hn2⟩ := hcells it e (by simp)
    exact ⟨L, it, e, n, ht, hn1, hn2, evict_eq c ht, core_evict h.core ht⟩

omit [Inhabited V] in
/-- The insertion of a new key into a cache with room left gives a
well-formed cache. -/
theorem inv_insertNew {c : LfuCache K V} (hc : Core c) {key : K} (value : V)
    (hkv : UMap.find c.key_to_val_ key = none) (hroom : UMap.size c.key_to_val_ < c.capacity_)
    (hr : ∀ k n, UMap.find c.key_to_val_ k = some n →
      -2147483648 ≤ n.freq ∧ n.freq ≤ 2147483647) :
    Inv (insertNew c key value) := by
  have hcore := core_insert hc value hkv
  refine ⟨hcore, ?_, ?_, ?_⟩
  · simp only [insertNew, UMap.size_set, hkv, Option.isSome_none]
    simp only [Bool.false_eq_true, if_false]
    omega
  · intro _
    simp only [insertNew, find_pushKey, if_true]; rfl
  · intro k n1 hk
    simp only [insertNew] at hk
    rw [UMap.find_set] at hk
    by_cases e : key = k
    · rw [if_pos e] at hk
      cases hk
      refine ⟨?_, ?_⟩ <;> simp
    · rw [if_neg e] at hk
      exact hr k n1 hk

end LfuCache

namespace LfuCache

variable {K V : Type} [DecidableEq K] [Inhabited V]

/-- Effect of `put` on a new key when there is room: only the insertion. -/
theorem lfu_put_absent_room {c : LfuCache K V} (h : Inv c) {key : K} (value : V)
    (hkv : UMap.find c.key_to_val_ key = none) (hroom : UMap.size c.key_to_val_ < c.capacity_) :
    put c key value = some (insertNew c key value) ∧ Inv (insertNew c key value) := by
  refine ⟨?_, inv_insertNew h.core value hkv hroom h.range⟩
  have h0 : c.capacity_ ≠ 0 := by omega
  have h1 : ¬ UMap.size c.key_to_val_ ≥ c.capacity_ := by omega
  simp only [put, h0, if_false, hkv, h1]

/-- Effect of `put` on a new key when the cache is full: the key `e` of the
last cell of the tier of `min_freq_` is evicted, then the new key is inserted. -/
theorem lfu_put_absent_full {c : LfuCache K V} (h : Inv c) (hcap : c.capacity_ ≠ 0) {key : K}
    (value : V) (hkv : UMap.find c.key_to_val_ key = none)
    (hfull : c.capacity_ ≤ UMap.size c.key_to_val_) :
    ∃ L it e n, UMap.find c.freq_to_keys_ c.min_freq_ = some (L ++ [(it, e)]) ∧
      UMap.find c.key_to_val_ e = some n ∧ n.freq = c.min_freq_ ∧
      put c key value = some (insertNew { c with
        freq_to_keys_ := shrinkTier c.freq_to_keys_ c.min_freq_ L
        key_to_val_ := UMap.erase c.key_to_val_ e
        key_to_iter_ := UMap.erase c.key_to_iter_ e } key value) ∧
      Inv (insertNew { c with
        freq_to_keys_ := shrinkTier c.freq_to_keys_ c.min_freq_ L
        key_to_val_ := UMap.erase c.key_to_val_ e
        key_to_iter_ := UMap.erase c.key_to_iter_ e } key value) ∧
      Core { c with
        freq_to_keys_ := shrinkTier c.freq_to_keys_ c.min_freq_ L
        key_to_val_ := UMap.erase c.key_to_val_ e
        key_to_iter_ := UMap.erase c.key_to_iter_ e } := by
  have hne : c.key_to_val_ ≠ [] := by
    intro e
    rw [e] at hfull
    simp only [UMap.size, List.length_nil] at hfull
    omega
  obtain ⟨L, it, e, n, h1, h2, h3, h4, h5⟩ := evict_spec h hne
  refine ⟨L, it, e, n, h1, h2, h3, ?_, ?_, h5⟩
  · have h0 : UMap.size c.key_to_val_ ≥ c.capacity_ := hfull
    simp only [put, hcap, if_false, hkv, h0, if_true, h4]
  · apply inv_insertNew h5 value
    · simp only
      rw [UMap.find_erase]
      split
      · rfl
      · exact hkv
    · have := UMap.size_erase_lt c.key_to_val_ e (by rw [h2]; simp)
      have := h.bound
      simp only
      omega
    · intro k1 n1 hk1
      simp only at hk1
      rw [UMap.find_erase] at hk1
      split at hk1
      · cases hk1
      · exact h.range k1 n1 hk1

/-- Every call succeeds on a well-formed cache and keeps the invariant. -/
theorem lfu_step_inv {c : LfuCache K V} (h : Inv c) (op : Op K V) :
    ∃ c1 r, step c op = some (c1, r) ∧ Inv c1 ∧ c1.capacity_ = c.capacity_ := by
  cases op with
  | get k =>
    cases hf : UMap.find c.key_to_val_ k with
    | none => exact ⟨c, none, lfu_get_miss c k hf, h, rfl⟩
    | some n =>
      obtain ⟨c1, h1, -, h2, h3, -⟩ := lfu_get_hit h hf
      exact ⟨c1, some n.value, h1, h2, h3⟩
  | put k v =>
    by_cases hcap : c.capacity_ = 0
    · exact ⟨c, none, by simp [step, put, hcap], h, rfl⟩
    · cases hf : UMap.find c.key_to_val_ k with
      | none =>
        by_cases hfull : c.capacity_ ≤ UMap.size c.key_to_val_
        · obtain ⟨L, it, e, n, -, -, -, h1, h2, -⟩ := lfu_put_absent_full h hcap v hf hfull
          exact ⟨_, none, by simp [step, h1], h2, rfl⟩
        · obtain ⟨h1, h2⟩ := lfu_put_absent_room h v hf (by omega)
          exact ⟨_, none, by simp [step, h1], h2, rfl⟩
      | some n =>
        obtain ⟨c1, h1, h2, h3, -⟩ := lfu_put_present h hcap v hf
        exact ⟨c1, none, by simp [step, h1], h2, h3⟩

theorem lfu_runFrom_inv {c : LfuCache K V} (h : Inv c) (ops : List (Op K V)) :
    ∃ s rs, runFrom c ops = some (s, rs) ∧ Inv s ∧ s.capacity_ = c.capacity_ := by
  induction ops generalizing c with
  | nil => exact ⟨c, [], rfl, h, rfl⟩
  | cons op ops ih =>
    obtain ⟨c1, r, h1, h2, h3⟩ := lfu_step_inv h op
    obtain ⟨s, rs, h4, h5, h6⟩ := ih h2
    exact ⟨s, r :: rs, by simp [runFrom, h1, h4], h5, h6.trans h3⟩

/-- Every state reached from a fresh cache satisfies the invariant. -/
theorem lfu_run_inv {cap : Nat} {ops : List (Op K V)} {s : LfuCache K V}
    {rs : List (Option V)} (hrun : run cap ops = some (s, rs)) :
    Inv s ∧ s.capacity_ = cap := by
  obtain ⟨s1, rs1, h1, h2, h3⟩ := lfu_runFrom_inv (inv_new (K := K) (V := V) cap) ops
  rw [run, h1] at hrun
  simp only [Option.some.injEq, Prod.mk.injEq] at hrun
  obtain ⟨rfl, -⟩ := hrun
  exact ⟨h2, h3⟩

end LfuCache

namespace UMap

variable {A B : Type} [DecidableEq A]

end UMap

namespace LruCache

variable {K V : Type} [DecidableEq K]

/-- Every state reached from a fresh cache of positive capacity is well-formed. -/
theorem lru_run_wf {cap : Nat} (hcap : 1 ≤ cap) {ops : List (Op K V)} {s : LruCache K V}
    {rs : List (Option V)} (hrun : run cap ops = some (s, rs)) :
    WF s ∧ s.capacity_ = cap := by
  obtain ⟨s1, rs1, h1, h2, h3⟩ := runFrom_wf (wf_new (K := K) (V := V) cap) hcap ops
  rw [run, h1] at hrun
  simp only [Option.some.injEq, Prod.mk.injEq] at hrun
  obtain ⟨rfl, -⟩ := hrun
  exact ⟨h2, h3⟩

end LruCache

/-! ## `LfuCache`: the counters before any of them wraps -/

namespace LfuCache

variable {K V : Type} [DecidableEq K] [Inhabited V]

end LfuCache

/-! ## `LfuCache`: a run that makes a counter wrap -/

namespace LfuCache

variable {K V : Type} [DecidableEq K] [Inhabited V]

end LfuCache

namespace LfuCache

variable {K V : Type} [DecidableEq K] [Inhabited V]

end LfuCache

namespace LfuCache

variable {K V : Type} [DecidableEq K] [Inhabited V]

end LfuCache

namespace LfuCache

variable {K V : Type} [DecidableEq K] [Inhabited V]

end LfuCache

/-! ## `LruCache`: explicit forms and the invariant for any capacity -/

namespace UMap

variable {A B : Type} [DecidableEq A]

theorem erase_eq_filter (m : UMap A B) (k : A) :
    erase m k = m.filter (fun e => !decide (e.1 = k)) := by
  induction m with
  | nil => rfl
  | cons p m ih =>
    obtain ⟨a, b⟩ := p
    by_cases h1 : a = k <;> simp [erase, h1, ih]

end UMap

namespace LruCache

variable {K V : Type} [DecidableEq K]

/-- Explicit form of a hit of `get`: the cell of the key is relinked in
front, the index is left as it is. -/
theorem get_hit_eq {c : LruCache K V} (h : WF c) {k : K} {v0 : V} {it : Nat}
    (hit : UMap.find c.cache_map_ k = some it)
    (hm : (it, (⟨k, v0⟩ : LruCache.Node K V)) ∈ c.lru_list_) :
    get c k = some ({ c with lru_list_ :=
        (it, ⟨k, v0⟩) :: c.lru_list_.filter (fun cl => !decide (cl.1 = it)) }, some v0) := by
  simp [get, hit, SList.spliceFront_of_mem _ _ _ h.addrs hm, SList.deref]

/-- Explicit form of `put` on a key that is present: the value is overwritten
and the cell relinked in front, the index is left as it is. -/
theorem put_present_eq {c : LruCache K V} (h : WF c) {k : K} {v0 : V} {it : Nat} (v : V)
    (hit : UMap.find c.cache_map_ k = some it)
    (hm : (it, (⟨k, v0⟩ : LruCache.Node K V)) ∈ c.lru_list_) :
    put c k v = some { c with lru_list_ :=
        (it, ⟨k, v⟩) :: c.lru_list_.filter (fun cl => !decide (cl.1 = it)) } := by
  obtain ⟨hd, -⟩ := SList.deref_erase_of_mem _ _ _ h.addrs hm
  obtain ⟨l1, h1, h2, h3, h4⟩ :=
    SList.assign_of_mem c.lru_list_ it _ (⟨k, v⟩ : LruCache.Node K V) hm
  have hs := SList.spliceFront_of_mem l1 it _ (h3 ▸ h.addrs) h2
  simp [put, hit, hd, h1, hs, h4]

/-- Explicit form of `put` on an absent key when the order sequence is full and
ends with the cell `b`: the key of `b` leaves the index, `b` leaves the
sequence, and the new entry is linked in front. -/
theorem put_absent_full_eq (c : LruCache K V) {k : K} (v : V) {L : SList (LruCache.Node K V)}
    {b : Nat × LruCache.Node K V} (hfm : UMap.find c.cache_map_ k = none)
    (hL : c.lru_list_ = L ++ [b]) (hfull : c.capacity_ ≤ c.lru_list_.length) :
    put c k v = some
      { c with
        lru_list_ := (SList.maxAddr L + 1, ⟨k, v⟩) :: L
        cache_map_ := UMap.set (UMap.erase c.cache_map_ b.2.key) k (SList.maxAddr L + 1) } := by
  obtain ⟨hbk, hpop⟩ := SList.back_popBack_concat L b
  have he : evictIfFull c =
      some { c with cache_map_ := UMap.erase c.cache_map_ b.2.key, lru_list_ := L } := by
    unfold evictIfFull
    rw [if_pos hfull, hL, hbk, hpop]
  simp [put, hfm, he, SList.pushFront, SList.begin]

/-- A call that succeeds keeps the invariant, whatever the capacity. -/
theorem step_wf_of_some {c c1 : LruCache K V} {op : Op K V} {r : Option V} (h : WF c)
    (hs : step c op = some (c1, r)) : WF c1 ∧ c1.capacity_ = c.capacity_ := by
  by_cases hcap : 1 ≤ c.capacity_
  · obtain ⟨c2, r2, h1, h2, h3⟩ := step_wf h hcap op
    rw [h1] at hs
    simp only [Option.some.injEq, Prod.mk.injEq] at hs
    obtain ⟨rfl, -⟩ := hs
    exact ⟨h2, h3⟩
  · cases op with
    | get k =>
      simp only [step] at hs
      cases hf : UMap.find (entries c) k with
      | none =>
        rw [get_miss c k ((h.find_none_iff k).2 hf)] at hs
        simp only [Option.some.injEq, Prod.mk.injEq] at hs
        obtain ⟨rfl, -⟩ := hs
        exact ⟨h, rfl⟩
      | some v0 =>
        obtain ⟨c2, h1, h2, h3, -⟩ := get_hit h hf
        rw [h1] at hs
        simp only [Option.some.injEq, Prod.mk.injEq] at hs
        obtain ⟨⟨rfl, -⟩⟩ := hs
        exact ⟨h2, h3⟩
    | put k v =>
      simp only [step, Option.map_eq_some', Prod.mk.injEq] at hs
      obtain ⟨c2, hput, rfl, -⟩ := hs
      cases hf : UMap.find (entries c) k with
      | none =>
        have hfm : UMap.find c.cache_map_ k = none := (h.find_none_iff k).2 hf
        have hb := h.bound
        have hnil : c.lru_list_ = [] := List.eq_nil_of_length_eq_zero (by omega)
        have : put c k v = none := by
          have h0 : c.capacity_ = 0 := by omega
          simp [put, hfm, evictIfFull, hnil, SList.back, SList.popBack, h0]
        rw [this] at hput
        cases hput
      | some v0 =>
        obtain ⟨c3, h1, h2, h3, -⟩ := put_present h v hf
        rw [h1] at hput
        simp only [Option.some.injEq] at hput
        subst hput
        exact ⟨h2, h3⟩

theorem runFrom_wf_of_some {c s : LruCache K V} {ops : List (Op K V)} {rs : List (Option V)}
    (h : WF c) (hrun : runFrom c ops = some (s, rs)) : WF s ∧ s.capacity_ = c.capacity_ := by
  induction ops generalizing c rs with
  | nil =>
    simp only [runFrom, Option.some.injEq, Prod.mk.injEq] at hrun
    obtain ⟨rfl, -⟩ := hrun
    exact ⟨h, rfl⟩
  | cons op ops ih =>
    simp only [runFrom] at hrun
    cases hs : step c op with
    | none => simp [hs] at hrun
    | some x =>
      obtain ⟨c1, r⟩ := x
      obtain ⟨h1, h2⟩ := step_wf_of_some h hs
      simp only [hs] at hrun
      cases hr : runFrom c1 ops with
      | none => simp [hr] at hrun
      | some y =>
        obtain ⟨c2, rs2⟩ := y
        simp only [hr, Option.some.injEq, Prod.mk.injEq] at hrun
        obtain ⟨rfl, -⟩ := hrun
        obtain ⟨h3, h4⟩ := ih h1 hr
        exact ⟨h3, h4.trans h2⟩

/-- Every state reached from a fresh cache is well-formed, whatever the
capacity. -/
theorem lru_run_wf_any {cap : Nat} {ops : List (Op K V)} {s : LruCache K V}
    {rs : List (Option V)} (hrun : run cap ops = some (s, rs)) :
    WF s ∧ s.capacity_ = cap :=
  runFrom_wf_of_some (wf_new cap) hrun

end LruCache

/-! ## `LfuCache`: the tiers after a hit -/

namespace LfuCache

variable {K V : Type} [DecidableEq K] [Inhabited V]

end LfuCache

/-! ## No failing step in reachable states -/

/-- In every state reached from a fresh `LfuCache` of any capacity every call
succeeds; when `put` is about to evict, the tier of `min_freq_` exists and is
non-empty; and for every live key the tier of its recorded frequency exists
and holds the cell that its iterator designates, so that `touch` can erase
it. -/
theorem lfu_no_failing_step {K V : Type} [DecidableEq K] [Inhabited V] (cap : Nat)
    (ops : List (Op K V)) (s : LfuCache K V) (rs : List (Option V))
    (hrun : LfuCache.run cap ops = some (s, rs)) :
    (∀ op, ∃ s1 r, LfuCache.step s op = some (s1, r)) ∧
    (∀ k, s.capacity_ ≠ 0 → UMap.find s.key_to_val_ k = none →
      s.capacity_ ≤ UMap.size s.key_to_val_ →
      ∃ t, UMap.find s.freq_to_keys_ s.min_freq_ = some t ∧ t ≠ []) ∧
    (∀ k n, UMap.find s.key_to_val_ k = some n →
      ∃ it t, UMap.find s.key_to_iter_ k = some it ∧
        UMap.find s.freq_to_keys_ n.freq = some t ∧ (it, k) ∈ t ∧
        SList.erase t it = some (t.filter (fun cl => !decide (cl.1 = it)))) := by
  obtain ⟨hinv, -⟩ := LfuCache.lfu_run_inv hrun
  refine ⟨?_, ?_, ?_⟩
  · intro op
    obtain ⟨s1, r, h1, -⟩ := LfuCache.lfu_step_inv hinv op
    exact ⟨s1, r, h1⟩
  · intro k hcap hk hfull
    have hne : s.key_to_val_ ≠ [] := by
      intro e
      rw [e] at hfull
      simp only [UMap.size, List.length_nil] at hfull
      omega
    have hm1 := hinv.minf hne
    obtain ⟨t, ht⟩ := Option.isSome_iff_exists.1 hm1
    exact ⟨t, ht, (hinv.core.tier _ _ ht).1⟩
  · intro k n hk
    obtain ⟨it, t, h1, h2, h3⟩ := hinv.core.live k n hk
    exact ⟨it, t, h1, h2, h3,
      (SList.deref_erase_of_mem t it k (hinv.core.tier _ _ h2).2.1 h3).2⟩

/-- In every state reached from a fresh `LruCache` of capacity at least 1
every call succeeds, and when `put` is about to evict the order sequence is
non-empty. -/
theorem lru_no_failing_step_pos {K V : Type} [DecidableEq K] (cap : Nat) (hcap : 1 ≤ cap)
    (ops : List (Op K V)) (s : LruCache K V) (rs : List (Option V))
    (hrun : LruCache.run cap ops = some (s, rs)) :
    (∀ op, ∃ s1 r, LruCache.step s op = some (s1, r)) ∧
    (s.capacity_ ≤ s.lru_list_.length → s.lru_list_ ≠ []) := by
  obtain ⟨hw, hc⟩ := LruCache.lru_run_wf hcap hrun
  refine ⟨?_, ?_⟩
  · intro op
    obtain ⟨s1, r, h1, -⟩ := LruCache.step_wf hw (by omega) op
    exact ⟨s1, r, h1⟩
  · intro hfull e
    rw [e] at hfull
    simp only [List.length_nil] at hfull
    omega

/-! ## Conversion of a signed argument to `size_t` -/

theorem toSizeT_lt (w : Nat) (n : Int) : toSizeT w n < 2 ^ w := by
  unfold toSizeT
  have hpos : (0 : Int) < 2 ^ w := by positivity
  have h1 := Int.emod_lt_of_pos n hpos
  have h2 := Int.emod_nonneg n (ne_of_gt hpos)
  have h3 : ((n % 2 ^ w).toNat : Int) = n % 2 ^ w := Int.toNat_of_nonneg h2
  have h4 : ((n % 2 ^ w).toNat : Int) < ((2 ^ w : Nat) : Int) := by
    rw [h3]; push_cast; exact h1
  exact_mod_cast h4

/-! ## The classes of cache_demo.cpp behave as those of the headers -/

namespace UMap

variable {A B C : Type} [DecidableEq A]

theorem find_mapVal (g : B → C) (m : UMap A B) (k : A) :
    find (mapVal g m) k = (find m k).map g := by
  induction m with
  | nil => rfl
  | cons p m ih =>
    obtain ⟨a, b⟩ := p
    simp only [mapVal, List.map_cons] at ih ⊢
    by_cases h : a = k <;> simp [find, h, ih]

theorem set_mapVal (g : B → C) (m : UMap A B) (k : A) (v : B) :
    set (mapVal g m) k (g v) = mapVal g (set m k v) := by
  induction m with
  | nil => rfl
  | cons p m ih =>
    obtain ⟨a, b⟩ := p
    simp only [mapVal, List.map_cons] at ih ⊢
    by_cases h : a = k <;> simp [set, h, ih]

theorem erase_mapVal (g : B → C) (m : UMap A B) (k : A) :
    erase (mapVal g m) k = mapVal g (erase m k) := by
  induction m with
  | nil => rfl
  | cons p m ih =>
    obtain ⟨a, b⟩ := p
    simp only [mapVal, List.map_cons] at ih ⊢
    by_cases h : a = k <;> simp [erase, h, ih]

omit [DecidableEq A] in
theorem size_mapVal (g : B → C) (m : UMap A B) : size (mapVal g m) = size m := by
  simp [size, mapVal]

theorem ensure_mapVal [Inhabited B] [Inhabited C] (g : B → C) (hg : g default = default)
    (m : UMap A B) (k : A) : ensure (mapVal g m) k = mapVal g (ensure m k) := by
  unfold ensure
  rw [find_mapVal]
  cases find m k with
  | none => simp only [Option.map_none']; rw [← hg, set_mapVal]
  | some b => rfl

theorem read_mapVal [Inhabited B] [Inhabited C] (g : B → C) (hg : g default = default)
    (m : UMap A B) (k : A) : read (mapVal g m) k = g (read m k) := by
  unfold read
  rw [find_mapVal]
  cases find m k with
  | none => simp only [Option.map_none', Option.getD_none]; exact hg.symm
  | some b => rfl

end UMap

namespace SList

variable {T U : Type}

theorem maxAddr_mapVal (g : T → U) (l : SList T) : maxAddr (mapVal g l) = maxAddr l := by
  induction l with
  | nil => rfl
  | cons c l ih =>
    simp only [mapVal, List.map_cons] at ih ⊢
    simp [maxAddr, ih]

theorem deref_mapVal (g : T → U) (l : SList T) (it : Nat) :
    deref (mapVal g l) it = (deref l it).map g := by
  induction l with
  | nil => rfl
  | cons c l ih =>
    simp only [mapVal, List.map_cons] at ih ⊢
    by_cases h : c.1 = it <;> simp [deref, h, ih]

theorem eraseCell_mapVal (g : T → U) (l : SList T) (it : Nat) :
    erase (mapVal g l) it = (erase l it).map (mapVal g) := by
  induction l with
  | nil => rfl
  | cons c l ih =>
    simp only [mapVal, List.map_cons] at ih ⊢
    by_cases h : c.1 = it
    · simp [erase, h, mapVal]
    · simp only [erase, h, if_false, ih]
      cases erase l it <;> rfl

theorem assign_mapVal (g : T → U) (l : SList T) (it : Nat) (x : T) :
    assign (mapVal g l) it (g x) = (assign l it x).map (mapVal g) := by
  induction l with
  | nil => rfl
  | cons c l ih =>
    simp only [mapVal, List.map_cons] at ih ⊢
    by_cases h : c.1 = it
    · simp [assign, h, mapVal]
    · simp only [assign, h, if_false, ih]
      cases assign l it x <;> rfl

theorem spliceFront_mapVal (g : T → U) (l : SList T) (it : Nat) :
    spliceFront (mapVal g l) it = (spliceFront l it).map (mapVal g) := by
  unfold spliceFront
  rw [deref_mapVal, eraseCell_mapVal]
  cases deref l it <;> cases erase l it <;> rfl

theorem back_mapVal (g : T → U) (l : SList T) : back (mapVal g l) = (back l).map g := by
  simp only [back, mapVal, List.getLast?_map, Option.map_map]
  rfl

theorem popBack_mapVal (g : T → U) (l : SList T) :
    popBack (mapVal g l) = (popBack l).map (mapVal g) := by
  cases l with
  | nil => rfl
  | cons c l => simp [popBack, mapVal, List.map_dropLast]

end SList

namespace LRUCache

variable {K V : Type} [DecidableEq K]

theorem get_toHeader (c : LRUCache K V) (k : K) :
    LruCache.get (toHeader c) k = (get c k).map (fun x => (toHeader x.1, x.2)) := by
  unfold LruCache.get get
  simp only [toHeader]
  cases UMap.find c.lookup_ k with
  | none => rfl
  | some it =>
    simp only [SList.spliceFront_mapVal]
    cases SList.spliceFront c.items_ it with
    | none => rfl
    | some l =>
      simp only [Option.map_some', SList.deref_mapVal]
      cases SList.deref l it with
      | none => rfl
      | some n => rfl

theorem put_toHeader (c : LRUCache K V) (k : K) (v : V) :
    LruCache.put (toHeader c) k v = (put c k v).map toHeader := by
  unfold LruCache.put put
  simp only [toHeader]
  cases UMap.find c.lookup_ k with
  | some it =>
    simp only [SList.deref_mapVal]
    cases SList.deref c.items_ it with
    | none => rfl
    | some n =>
      simp only [Option.map_some']
      have hn : ({ toNode n with value := v } : LruCache.Node K V) =
          toNode { n with value := v } := rfl
      rw [hn, SList.assign_mapVal]
      cases SList.assign c.items_ it { n with value := v } with
      | none => rfl
      | some l1 =>
        simp only [Option.map_some', SList.spliceFront_mapVal]
        cases SList.spliceFront l1 it with
        | none => rfl
        | some l2 => rfl
  | none =>
    simp only [LruCache.evictIfFull]
    have hlen : (SList.mapVal toNode c.items_).length = c.items_.length := by
      simp [SList.mapVal]
    rw [hlen, SList.back_mapVal, SList.popBack_mapVal]
    by_cases hfull : c.items_.length ≥ c.capacity_
    · simp only [hfull, if_true]
      cases SList.back c.items_ with
      | none => rfl
      | some last =>
        cases SList.popBack c.items_ with
        | none => rfl
        | some l =>
          simp only [Option.map_some', SList.maxAddr_mapVal]
          rfl
    · simp only [hfull, if_false, Option.map_some', SList.maxAddr_mapVal]
      rfl

theorem step_toHeader (c : LRUCache K V) (op : Op K V) :
    LruCache.step (toHeader c) op = (step c op).map (fun x => (toHeader x.1, x.2)) := by
  cases op with
  | get k => exact get_toHeader c k
  | put k v =>
    simp only [LruCache.step, step, put_toHeader]
    cases put c k v <;> rfl

theorem runFrom_toHeader (c : LRUCache K V) (ops : List (Op K V)) :
    LruCache.runFrom (toHeader c) ops =
      (runFrom c ops).map (fun x => (toHeader x.1, x.2)) := by
  induction ops generalizing c with
  | nil => rfl
  | cons op ops ih =>
    rw [LruCache.runFrom, runFrom, step_toHeader]
    cases step c op with
    | none => rfl
    | some x =>
      obtain ⟨c1, r⟩ := x
      simp only [Option.map_some', ih]
      cases runFrom c1 ops with
      | none => rfl
      | some y => rfl

/-- The results of a run on `LRUCache` are those of the same run on `LruCache`. -/
theorem run_results_eq (cap : Nat) (ops : List (Op K V)) :
    (run cap ops).map Prod.snd = (LruCache.run cap ops).map Prod.snd := by
  have h := runFrom_toHeader (new cap : LRUCache K V) ops
  have hnew : toHeader (new cap : LRUCache K V) = LruCache.new cap := rfl
  rw [hnew] at h
  rw [run, LruCache.run, h]
  cases runFrom (new cap : LRUCache K V) ops <;> rfl

end LRUCache

namespace LFUCache

variable {K V : Type} [DecidableEq K] [Inhabited V]

omit [DecidableEq K] in
theorem toNode_default : toNode (default : LFUCache.Entry V) = default := rfl

theorem touch_toHeader (c : LFUCache K V) (key : K) :
    LfuCache.touch (toHeader c) key = (increaseFreq c key).map toHeader := by
  unfold LfuCache.touch increaseFreq
  simp only [toHeader, UMap.ensure_mapVal toNode toNode_default,
    UMap.read_mapVal toNode toNode_default]
  have hfreq : ∀ e : LFUCache.Entry V, (toNode e).freq = e.freq := fun _ => rfl
  simp only [hfreq]
  cases SList.erase (UMap.read (UMap.ensure c.freqList_ (UMap.read (UMap.ensure c.data_ key)
      key).freq) (UMap.read (UMap.ensure c.data_ key) key).freq)
      (UMap.read (UMap.ensure c.iter_ key) key) with
  | none => rfl
  | some l =>
    simp only [Option.map_some', toHeader]
    have hset : ∀ (m : UMap K (LFUCache.Entry V)) (e : LFUCache.Entry V) (f : Int),
        UMap.set (UMap.mapVal toNode m) key { toNode e with freq := f } =
          UMap.mapVal toNode (UMap.set m key { e with freq := f }) := by
      intro m e f
      rw [← UMap.set_mapVal]
      rfl
    rw [hset]

theorem lfu_get_toHeader (c : LFUCache K V) (key : K) :
    LfuCache.get (toHeader c) key = (get c key).map (fun x => (toHeader x.1, x.2)) := by
  unfold LfuCache.get get
  rw [touch_toHeader]
  simp only [toHeader, UMap.find_mapVal]
  cases UMap.find c.data_ key with
  | none => rfl
  | some e =>
    simp only [Option.map_some']
    cases increaseFreq c key with
    | none => rfl
    | some c1 =>
      simp only [Option.map_some', toHeader, UMap.ensure_mapVal toNode toNode_default,
        UMap.read_mapVal toNode toNode_default]
      rfl

omit [Inhabited V] in
theorem evict_toHeader (c : LFUCache K V) :
    (if UMap.size (toHeader c).key_to_val_ ≥ (toHeader c).capacity_
      then LfuCache.evict (toHeader c) else some (toHeader c)) =
      (evictIfNeeded c).map toHeader := by
  unfold LfuCache.evict evictIfNeeded
  simp only [toHeader, UMap.size_mapVal]
  by_cases hfull : UMap.size c.data_ ≥ c.capacity_
  · simp only [hfull, if_true]
    cases SList.back (UMap.read (UMap.ensure c.freqList_ c.minFreq_) c.minFreq_) with
    | none => rfl
    | some k =>
      cases SList.popBack (UMap.read (UMap.ensure c.freqList_ c.minFreq_) c.minFreq_) with
      | none => rfl
      | some l =>
        simp only [Option.map_some', toHeader, UMap.erase_mapVal]
  · simp only [hfull, if_false, Option.map_some', toHeader]

theorem lfu_put_toHeader (c : LFUCache K V) (key : K) (value : V) :
    LfuCache.put (toHeader c) key value = (put c key value).map toHeader := by
  unfold LfuCache.put put
  by_cases hcap : c.capacity_ = 0
  · have h1 : (toHeader c).capacity_ = 0 := hcap
    simp only [h1, hcap, if_true, Option.map_some']
  · have h1 : ¬ (toHeader c).capacity_ = 0 := hcap
    simp only [h1, hcap, if_false]
    have hfind : UMap.find (toHeader c).key_to_val_ key = (UMap.find c.data_ key).map toNode :=
      UMap.find_mapVal _ _ _
    rw [hfind, evict_toHeader]
    cases UMap.find c.data_ key with
    | some e =>
      simp only [Option.map_some']
      rw [← touch_toHeader]
      congr 1
      simp only [toHeader, UMap.read_mapVal toNode toNode_default]
      rw [← UMap.set_mapVal]
      rfl
    | none =>
      simp only [Option.map_none']
      cases evictIfNeeded c with
      | none => rfl
      | some c1 =>
        simp only [Option.map_some', LfuCache.insertNew, toHeader, Option.some.injEq]
        rw [← UMap.set_mapVal]
        rfl

theorem lfu_step_toHeader (c : LFUCache K V) (op : Op K V) :
    LfuCache.step (toHeader c) op = (step c op).map (fun x => (toHeader x.1, x.2)) := by
  cases op with
  | get k => exact lfu_get_toHeader c k
  | put k v =>
    simp only [LfuCache.step, step, lfu_put_toHeader]
    cases put c k v <;> rfl

theorem lfu_runFrom_toHeader (c : LFUCache K V) (ops : List (Op K V)) :
    LfuCache.runFrom (toHeader c) ops =
      (runFrom c ops).map (fun x => (toHeader x.1, x.2)) := by
  induction ops generalizing c with
  | nil => rfl
  | cons op ops ih =>
    rw [LfuCache.runFrom, runFrom, lfu_step_toHeader]
    cases step c op with
    | none => rfl
    | some x =>
      obtain ⟨c1, r⟩ := x
      simp only [Option.map_some', ih]
      cases runFrom c1 ops with
      | none => rfl
      | some y => rfl

/-- The results of a run on `LFUCache` are those of the same run on `LfuCache`. -/
theorem lfu_run_results_eq (cap : Nat) (ops : List (Op K V)) :
    (run cap ops).map Prod.snd = (LfuCache.run cap ops).map Prod.snd := by
  have h := lfu_runFrom_toHeader (new cap : LFUCache K V) ops
  have hnew : toHeader (new cap : LFUCache K V) = LfuCache.new cap := rfl
  rw [hnew] at h
  rw [run, LfuCache.run, h]
  cases runFrom (new cap : LFUCache K V) ops <;> rfl

end LFUCache

/-! ## Capacity bound of `LruCache` for a positive capacity -/

/-- For every capacity `cap ≥ 1` every sequence of calls on a fresh `LruCache`
succeeds, and afterwards the order sequence holds at most `cap` entries and the
index has the same size. -/
theorem lru_capacity_bound_pos {K V : Type} [DecidableEq K] (cap : Nat) (hcap : 1 ≤ cap)
    (ops : List (Op K V)) :
    ∃ s rs, LruCache.run cap ops = some (s, rs) ∧ s.lru_list_.length ≤ cap ∧
      UMap.size s.cache_map_ = s.lru_list_.length := by
  obtain ⟨s, rs, h1, h2, h3⟩ :=
    LruCache.runFrom_wf (LruCache.wf_new (K := K) (V := V) cap) hcap ops
  refine ⟨s, rs, h1, ?_, h2.size_eq⟩
  have := h2.bound
  rw [h3] at this
  exact this

/-! ## The claims -/

section Claims

variable {K V : Type} [DecidableEq K]

/-- C1 (fails on the code). `LruCache::put` has no zero-capacity guard: on a
cache constructed with capacity 0 the test `lru_list_.size() >= capacity_`
holds for the empty order sequence, so every `put` calls `back()` and
`pop_back()` on an empty list, which is undefined; it is not a no-op. -/
theorem lru_put_capacity_zero_undefined (k : K) (v : V) :
    LruCache.put (LruCache.new 0 : LruCache K V) k v = none := by
  simp [LruCache.put, LruCache.new, UMap.find, LruCache.evictIfFull, SList.back, SList.popBack]

/-- C2 (fails on the code at capacity 0). On a fresh `LruCache` of capacity 0,
any number of `get` calls followed by one `put` is undefined, so no state
exists for which the bound could hold. -/
theorem lru_capacity_zero_run_undefined (ks : List K) (k : K) (v : V) :
    LruCache.run (V := V) 0 (ks.map Op.get ++ [Op.put k v]) = none := by
  have hgets : LruCache.runFrom (LruCache.new 0 : LruCache K V) (ks.map Op.get) =
      some (LruCache.new 0, List.replicate ks.length none) := by
    induction ks with
    | nil => rfl
    | cons a ks ih =>
      have hstep : LruCache.step (LruCache.new 0 : LruCache K V) (Op.get a) =
          some (LruCache.new 0, none) := rfl
      rw [List.map_cons, LruCache.runFrom, hstep]
      simp only [ih, List.length_cons, List.replicate_succ]
  rw [LruCache.run, LruCache.runFrom_append, hgets]
  simp [LruCache.runFrom, LruCache.step, LruCache.put, LruCache.new, UMap.find, LruCache.evictIfFull, SList.back, SList.popBack]

/-- C6. For every capacity `cap ≥ 1` and pairwise distinct keys `k0` and
`rest` (`cap` of them), putting `k0` and then `rest` in order into a fresh
`LruCache` succeeds and leaves exactly the pairs of `rest` (most recent first):
`get` returns the value put for each key of `rest` and misses on `k0`, the
first-inserted key, and on every other key. -/
theorem lru_eviction_order (cap : Nat) (hcap : 1 ≤ cap) (k0 : K) (v0 : V)
    (rest : List (K × V)) (hlen : rest.length = cap)
    (hnd : (k0 :: rest.map Prod.fst).Nodup) :
    ∃ s rs, LruCache.run cap (((k0, v0) :: rest).map (fun p => Op.put p.1 p.2)) = some (s, rs) ∧
      LruCache.entries s = rest.reverse ∧
      LruCache.get s k0 = some (s, none) ∧
      (∀ p ∈ rest, ∃ s1, LruCache.get s p.1 = some (s1, some p.2)) ∧
      (∀ k, k ∉ rest.map Prod.fst → LruCache.get s k = some (s, none)) := by
  obtain ⟨s, h1, h2, h3, h4⟩ :=
    LruCache.runFrom_puts (LruCache.wf_new (K := K) (V := V) cap) hcap ((k0, v0) :: rest)
      (by simpa using hnd) (by intro p _; rfl)
  have hent : LruCache.entries s = rest.reverse := by
    rw [h4]
    simp only [LruCache.new, LruCache.entries, List.map_nil, List.append_nil,
      List.reverse_cons]
    exact List.take_left' (by simpa using hlen)
  have hkeys : UMap.keys (LruCache.entries s) = (rest.map Prod.fst).reverse := by
    rw [hent, UMap.keys, List.map_reverse]
  have hmiss : ∀ k, k ∉ rest.map Prod.fst → LruCache.get s k = some (s, none) := by
    intro k hk
    apply LruCache.get_miss
    rw [h2.find_none_iff]
    apply UMap.find_eq_none_of_not_mem_keys
    rw [hkeys]
    simpa using hk
  refine ⟨s, _, h1, hent, hmiss k0 (List.nodup_cons.1 hnd).1, ?_, hmiss⟩
  intro p hp
  have hf : UMap.find (LruCache.entries s) p.1 = some p.2 := by
    apply UMap.find_of_mem
    · rw [hkeys]; exact List.nodup_reverse.2 (List.nodup_cons.1 hnd).2
    · rw [hent]; simpa using hp
  obtain ⟨s1, hs1, -⟩ := LruCache.get_hit h2 hf
  exact ⟨s1, hs1⟩

/-- Witness of C6: capacity 2, keys 1, 2, 3. -/
theorem lru_eviction_order_witness :
    ∃ s rs, LruCache.run 2 [Op.put 1 10, Op.put 2 20, Op.put 3 30] = some (s, rs) ∧
      LruCache.entries s = [(3, 30), (2, 20)] ∧
      LruCache.get s 1 = some (s, none) ∧
      (∀ p ∈ [(2, 20), (3, 30)], ∃ s1, LruCache.get s p.1 = some (s1, some p.2)) ∧
      (∀ k, k ∉ [2, 3] → LruCache.get s k = some (s, none)) :=
  lru_eviction_order (K := Nat) (V := Nat) 2 (by decide) 1 10 [(2, 20), (3, 30)] rfl
    (by decide)

/-- C7. For every capacity `cap ≥ 2`: after putting `cap` pairwise distinct
keys `k1, k2, rest` into a fresh `LruCache`, `get k1` on the oldest key returns
its value, and the next `put` of a new key evicts `k2`: afterwards `get k2`
misses, `get k1` still returns `v1`, and the new key is present. -/
theorem lru_recency_effect (cap : Nat) (k1 k2 knew : K) (v1 v2 vnew : V)
    (rest : List (K × V)) (hlen : rest.length + 2 = cap)
    (hnd : (knew :: k1 :: k2 :: rest.map Prod.fst).Nodup) :
    ∃ s, LruCache.run cap (((k1, v1) :: (k2, v2) :: rest).map (fun p => Op.put p.1 p.2) ++
          [Op.get k1, Op.put knew vnew]) =
        some (s, List.replicate (rest.length + 2) none ++ [some v1, none]) ∧
      LruCache.entries s = (knew, vnew) :: (k1, v1) :: rest.reverse ∧
      LruCache.get s k2 = some (s, none) ∧
      (∃ s1, LruCache.get s k1 = some (s1, some v1)) ∧
      (∃ s1, LruCache.get s knew = some (s1, some vnew)) := by
  have hcap : 1 ≤ cap := by omega
  simp only [List.nodup_cons, List.mem_cons, not_or] at hnd
  obtain ⟨⟨hn1, hn2, hn3⟩, ⟨h12, h1r⟩, h2r, hrest⟩ := hnd
  obtain ⟨s0, r0, w0, c0, e0⟩ :=
    LruCache.runFrom_puts (LruCache.wf_new (K := K) (V := V) cap) hcap
      ((k1, v1) :: (k2, v2) :: rest)
      (by simp only [List.map_cons, List.nodup_cons, List.mem_cons, not_or]
          exact ⟨⟨h12, h1r⟩, h2r, hrest⟩)
      (by intro p _; rfl)
  have e0b : LruCache.entries s0 = rest.reverse ++ [(k2, v2), (k1, v1)] := by
    rw [e0]
    simp only [LruCache.new, LruCache.entries, List.map_nil, List.append_nil,
      List.reverse_cons, List.append_assoc, List.singleton_append]
    apply List.take_of_length_le
    simp; omega
  have hk0 : (UMap.keys (LruCache.entries s0)).Nodup := by
    rw [LruCache.keys_entries]; exact w0.keysL
  have hf1 : UMap.find (LruCache.entries s0) k1 = some v1 :=
    UMap.find_of_mem hk0 (by rw [e0b]; simp)
  obtain ⟨s1, g1, w1, c1, e1⟩ := LruCache.get_hit w0 hf1
  have e1b : LruCache.entries s1 = ((k1, v1) :: rest.reverse) ++ [(k2, v2)] := by
    rw [e1, e0b]
    have hfr : rest.reverse.filter (fun e => !decide (e.1 = k1)) = rest.reverse := by
      rw [List.filter_eq_self]
      intro e he
      have : e.1 ≠ k1 := fun h =>
        h1r (h ▸ List.mem_map_of_mem Prod.fst (List.mem_reverse.1 he))
      simpa using this
    simp [List.filter_append, hfr, List.filter_cons, Ne.symm h12]
  have hfn : UMap.find (LruCache.entries s1) knew = none := by
    apply UMap.find_eq_none_of_not_mem_keys
    rw [e1b]
    simp only [UMap.keys, List.map_append, List.map_cons, List.map_reverse, List.map_nil,
      List.mem_append, List.mem_cons, List.mem_reverse, List.mem_singleton, not_or]
    exact ⟨⟨hn1, hn3⟩, hn2, List.not_mem_nil _⟩
  obtain ⟨s2, p2, w2, c2, e2⟩ := LruCache.put_absent w1 (by rw [c1, c0]; exact hcap) vnew hfn
  have e2b : LruCache.entries s2 = (knew, vnew) :: (k1, v1) :: rest.reverse := by
    rw [e2]
    have hfull : s1.capacity_ ≤ (LruCache.entries s1).length := by
      rw [e1b, c1, c0]; simp [LruCache.new]; omega
    rw [if_pos hfull, e1b, List.dropLast_concat]
  have hk2 : (UMap.keys (LruCache.entries s2)).Nodup := by
    rw [LruCache.keys_entries]; exact w2.keysL
  refine ⟨s2, ?_, e2b, ?_, ?_, ?_⟩
  · rw [LruCache.run, LruCache.runFrom_append, r0]
    simp [LruCache.runFrom, LruCache.step, g1, p2]
  · apply LruCache.get_miss
    rw [w2.find_none_iff]
    apply UMap.find_eq_none_of_not_mem_keys
    rw [e2b]
    simp only [UMap.keys, List.map_cons, List.map_reverse, List.mem_cons, List.mem_reverse,
      not_or]
    exact ⟨Ne.symm hn2, Ne.symm h12, h2r⟩
  · have hf : UMap.find (LruCache.entries s2) k1 = some v1 :=
      UMap.find_of_mem hk2 (by rw [e2b]; simp)
    obtain ⟨s3, g3, -⟩ := LruCache.get_hit w2 hf
    exact ⟨s3, g3⟩
  · have hf : UMap.find (LruCache.entries s2) knew = some vnew :=
      UMap.find_of_mem hk2 (by rw [e2b]; simp)
    obtain ⟨s3, g3, -⟩ := LruCache.get_hit w2 hf
    exact ⟨s3, g3⟩

/-- Witness of C7, the end-to-end scenario of capacity 2: `put(1,"a")`,
`put(2,"b")`, `get(1)`, `put(3,"c")`, then `get(2)`, `get(1)`, `get(3)`. -/
theorem lru_recency_effect_witness :
    (∃ s, LruCache.run 2 [Op.put 1 "a", Op.put 2 "b", Op.get 1, Op.put 3 "c"] =
        some (s, [none, none, some "a", none]) ∧
      LruCache.entries s = [(3, "c"), (1, "a")] ∧
      LruCache.get s 2 = some (s, none) ∧
      (∃ s1, LruCache.get s 1 = some (s1, some "a")) ∧
      (∃ s1, LruCache.get s 3 = some (s1, some "c"))) ∧
    (LruCache.run 2 [Op.put 1 "a", Op.put 2 "b", Op.get 1, Op.put 3 "c", Op.get 2, Op.get 1,
        Op.get 3]).map Prod.snd =
      some [none, none, some "a", none, none, some "a", some "c"] :=
  ⟨lru_recency_effect (K := Nat) (V := String) 2 1 2 3 "a" "b" "c" [] rfl (by decide),
   by decide⟩

variable [Inhabited V]

/-- C3. For every capacity and every sequence of calls on a fresh `LfuCache`,
the run succeeds and `key_to_val_` (which has one entry per key) holds at most
`cap` keys. Every prefix of a sequence is a sequence, so the bound holds after
every call. -/
theorem lfu_capacity_bound (cap : Nat) (ops : List (Op K V)) :
    ∃ s rs, LfuCache.run cap ops = some (s, rs) ∧ UMap.size s.key_to_val_ ≤ cap ∧
      (UMap.keys s.key_to_val_).Nodup := by
  obtain ⟨s, rs, h1, h2, h3⟩ :=
    LfuCache.lfu_runFrom_inv (LfuCache.inv_new (K := K) (V := V) cap) ops
  refine ⟨s, rs, h1, ?_, h2.core.keysV⟩
  have := h2.bound
  rw [h3] at this
  exact this

/-- C8. Read-after-write, for both caches and every capacity `cap ≥ 1`: in
every state reached from a fresh cache, `put k v` succeeds and the `get k`
that follows returns `v`, whether `k` was live or not and whether or not the
`put` evicted another key. -/
theorem read_after_write (cap : Nat) (hcap : 1 ≤ cap) (k : K) (v : V) :
    (∀ (ops : List (Op K V)) (s : LruCache K V) (rs : List (Option V)),
      LruCache.run cap ops = some (s, rs) →
      ∃ s1 s2, LruCache.put s k v = some s1 ∧ LruCache.get s1 k = some (s2, some v)) ∧
    (∀ (ops : List (Op K V)) (s : LfuCache K V) (rs : List (Option V)),
      LfuCache.run cap ops = some (s, rs) →
      ∃ s1 s2, LfuCache.put s k v = some s1 ∧ LfuCache.get s1 k = some (s2, some v)) := by
  constructor
  · intro ops s rs hrun
    obtain ⟨hw, hc⟩ := LruCache.lru_run_wf hcap hrun
    have hput : ∃ s1 rest, LruCache.put s k v = some s1 ∧ LruCache.WF s1 ∧
        LruCache.entries s1 = (k, v) :: rest := by
      cases hf : UMap.find (LruCache.entries s) k with
      | none =>
        obtain ⟨s1, h1, h2, -, h4⟩ := LruCache.put_absent hw (by omega) v hf
        exact ⟨s1, _, h1, h2, h4⟩
      | some v0 =>
        obtain ⟨s1, h1, h2, -, h4⟩ := LruCache.put_present hw v hf
        exact ⟨s1, _, h1, h2, h4⟩
    obtain ⟨s1, rest, h1, h2, h3⟩ := hput
    have hf : UMap.find (LruCache.entries s1) k = some v := by
      rw [h3]; simp [UMap.find]
    obtain ⟨s2, h4, -⟩ := LruCache.get_hit h2 hf
    exact ⟨s1, s2, h1, h4⟩
  · intro ops s rs hrun
    obtain ⟨hinv, hc⟩ := LfuCache.lfu_run_inv hrun
    have hcap0 : s.capacity_ ≠ 0 := by omega
    have hput : ∃ s1 f, LfuCache.put s k v = some s1 ∧ LfuCache.Inv s1 ∧
        UMap.find s1.key_to_val_ k = some ⟨v, f⟩ := by
      cases hf : UMap.find s.key_to_val_ k with
      | none =>
        by_cases hfull : s.capacity_ ≤ UMap.size s.key_to_val_
        · obtain ⟨L, it, e, n, -, -, -, h1, h2, -⟩ :=
            LfuCache.lfu_put_absent_full hinv hcap0 v hf hfull
          exact ⟨_, 1, h1, h2, by simp only [LfuCache.insertNew]; exact UMap.find_set_self _ _ _⟩
        · obtain ⟨h1, h2⟩ := LfuCache.lfu_put_absent_room hinv v hf (by omega)
          exact ⟨_, 1, h1, h2, by simp only [LfuCache.insertNew]; exact UMap.find_set_self _ _ _⟩
      | some n =>
        obtain ⟨s1, h1, h2, -, h4⟩ := LfuCache.lfu_put_present hinv hcap0 v hf
        exact ⟨s1, wrap32 (n.freq + 1), h1, h2, by rw [h4]; exact UMap.find_set_self _ _ _⟩
    obtain ⟨s1, f, h1, h2, h3⟩ := hput
    obtain ⟨s2, h4, -⟩ := LfuCache.lfu_get_hit h2 h3
    exact ⟨s1, s2, h1, h4⟩

/-- Witness of C8: capacity 2, after `put(1,10)`, `put(2,20)` (both caches
full), `put(3,30)` evicts a key and the `get(3)` that follows returns 30. -/
theorem read_after_write_witness :
    (∃ s1 s2,
      LruCache.put ({ capacity_ := 2, lru_list_ := [(2, ⟨2, 20⟩), (1, ⟨1, 10⟩)],
                      cache_map_ := [(1, 1), (2, 2)] } : LruCache Nat Nat) 3 30 = some s1 ∧
      LruCache.get s1 3 = some (s2, some 30)) ∧
    (∃ s1 s2,
      LfuCache.put ({ capacity_ := 2, min_freq_ := 1,
                      key_to_val_ := [(1, ⟨10, 1⟩), (2, ⟨20, 1⟩)],
                      freq_to_keys_ := [(1, [(2, 2), (1, 1)])],
                      key_to_iter_ := [(1, 1), (2, 2)] } : LfuCache Nat Nat) 3 30 = some s1 ∧
      LfuCache.get s1 3 = some (s2, some 30)) :=
  ⟨(read_after_write (K := Nat) (V := Nat) 2 (by decide) 3 30).1
      [Op.put 1 10, Op.put 2 20] _ [none, none] (by decide),
   (read_after_write (K := Nat) (V := Nat) 2 (by decide) 3 30).2
      [Op.put 1 10, Op.put 2 20] _ [none, none] (by decide)⟩

/-- C9. A miss never mutates, in any state of either cache: `get` on a key
that has no entry returns absent and the state after the call is the state
before it. -/
theorem get_miss_no_mutation (cR : LruCache K V) (cF : LfuCache K V) (k : K) :
    (UMap.find cR.cache_map_ k = none → LruCache.get cR k = some (cR, none)) ∧
    (UMap.find cF.key_to_val_ k = none → LfuCache.get cF k = some (cF, none)) :=
  ⟨LruCache.get_miss cR k, LfuCache.lfu_get_miss cF k⟩

/-- Witness of C9: `get(3)` on caches that hold the keys 1 and 2. -/
theorem get_miss_no_mutation_witness :
    LruCache.get ({ capacity_ := 2, lru_list_ := [(2, ⟨2, 20⟩), (1, ⟨1, 10⟩)],
                    cache_map_ := [(1, 1), (2, 2)] } : LruCache Nat Nat) 3 =
      some ({ capacity_ := 2, lru_list_ := [(2, ⟨2, 20⟩), (1, ⟨1, 10⟩)],
              cache_map_ := [(1, 1), (2, 2)] }, none) ∧
    LfuCache.get ({ capacity_ := 2, min_freq_ := 1,
                    key_to_val_ := [(1, ⟨10, 1⟩), (2, ⟨20, 1⟩)],
                    freq_to_keys_ := [(1, [(2, 2), (1, 1)])],
                    key_to_iter_ := [(1, 1), (2, 2)] } : LfuCache Nat Nat) 3 =
      some ({ capacity_ := 2, min_freq_ := 1,
              key_to_val_ := [(1, ⟨10, 1⟩), (2, ⟨20, 1⟩)],
              freq_to_keys_ := [(1, [(2, 2), (1, 1)])],
              key_to_iter_ := [(1, 1), (2, 2)] }, none) :=
  ⟨(get_miss_no_mutation (K := Nat) (V := Nat) _ (LfuCache.new 0) 3).1 (by decide),
   (get_miss_no_mutation (K := Nat) (V := Nat) (LruCache.new 0) _ 3).2 (by decide)⟩

/-- C10. In every state reached from a fresh `LfuCache` of capacity `cap ≥ 1`
and for every live key `k`, `put k v` and `get k` both succeed, and the state
after `put k v` is the state after `get k` with the stored value of `k`
replaced by `v`; the live keys and their number are unchanged, so nothing is
evicted even when the cache is full. -/
theorem lfu_update_in_place (cap : Nat) (hcap : 1 ≤ cap) (ops : List (Op K V))
    (s : LfuCache K V) (rs : List (Option V)) (hrun : LfuCache.run cap ops = some (s, rs))
    (k : K) (n : LfuCache.Node V) (hk : UMap.find s.key_to_val_ k = some n) (v : V) :
    ∃ s1 s2, LfuCache.put s k v = some s1 ∧ LfuCache.get s k = some (s2, some n.value) ∧
      s1 = { s2 with key_to_val_ :=
              UMap.set s2.key_to_val_ k { UMap.read s2.key_to_val_ k with value := v } } ∧
      UMap.size s1.key_to_val_ = UMap.size s.key_to_val_ ∧
      (∀ k1, (UMap.find s1.key_to_val_ k1).isSome = (UMap.find s.key_to_val_ k1).isSome) := by
  obtain ⟨hinv, hc⟩ := LfuCache.lfu_run_inv hrun
  have hcap0 : s.capacity_ ≠ 0 := by omega
  obtain ⟨it, t, hki, hft, hmem⟩ := hinv.core.live k n hk
  obtain ⟨-, hnd, -⟩ := hinv.core.tier _ _ hft
  obtain ⟨s2, hget, htouch, -, -, hkv2⟩ := LfuCache.lfu_get_hit hinv hk
  have ht2 := LfuCache.touch_eq s k hk hki hft hmem hnd
  rw [htouch] at ht2
  have hf : UMap.find (UMap.set s.key_to_val_ k { n with value := v }) k =
      some { n with value := v } := UMap.find_set_self _ _ _
  have ht1 := LfuCache.touch_eq
    { s with key_to_val_ := UMap.set s.key_to_val_ k { n with value := v } } k hf hki hft hmem hnd
  have hput : LfuCache.put s k v = LfuCache.touch
      { s with key_to_val_ := UMap.set s.key_to_val_ k { n with value := v } } k := by
    simp only [LfuCache.put, hcap0, if_false, hk, UMap.read_of_find hk]
  have hf2 : UMap.find s2.key_to_val_ k = some { n with freq := wrap32 (n.freq + 1) } := by
    rw [hkv2]; exact UMap.find_set_self _ _ _
  refine ⟨_, s2, hput.trans ht1, hget, ?_, ?_, ?_⟩
  · simp only [Option.some.injEq] at ht2
    rw [UMap.read_of_find hf2, ht2]
    simp only [UMap.set_set]
  · simp only [UMap.set_set, UMap.size_set, hk, Option.isSome_some, if_true]
  · intro k1
    simp only [UMap.set_set, UMap.find_set]
    split
    · rename_i e; subst e; simp [hk]
    · rfl

/-- Witness of C10: capacity 2, after `put(1,10)`, `put(2,20)` the cache is
full; `put(1,11)` gives the state of `get(1)` with the value replaced. -/
theorem lfu_update_in_place_witness :
    ∃ s1 s2,
      LfuCache.put ({ capacity_ := 2, min_freq_ := 1,
                      key_to_val_ := [(1, ⟨10, 1⟩), (2, ⟨20, 1⟩)],
                      freq_to_keys_ := [(1, [(2, 2), (1, 1)])],
                      key_to_iter_ := [(1, 1), (2, 2)] } : LfuCache Nat Nat) 1 11 = some s1 ∧
      LfuCache.get ({ capacity_ := 2, min_freq_ := 1,
                      key_to_val_ := [(1, ⟨10, 1⟩), (2, ⟨20, 1⟩)],
                      freq_to_keys_ := [(1, [(2, 2), (1, 1)])],
                      key_to_iter_ := [(1, 1), (2, 2)] } : LfuCache Nat Nat) 1 = some (s2, some 10) ∧
      s1 = { s2 with key_to_val_ :=
              UMap.set s2.key_to_val_ 1 { UMap.read s2.key_to_val_ 1 with value := 11 } } ∧
      UMap.size s1.key_to_val_ = 2 ∧
      (∀ k1, (UMap.find s1.key_to_val_ k1).isSome =
        (UMap.find [(1, (⟨10, 1⟩ : LfuCache.Node Nat)), (2, ⟨20, 1⟩)] k1).isSome) :=
  lfu_update_in_place (K := Nat) (V := Nat) 2 (by decide) [Op.put 1 10, Op.put 2 20] _
    [none, none] (by decide) 1 ⟨10, 1⟩ (by decide) 11

omit [Inhabited V] in
/-- C11. In every state reached from a fresh `LruCache` and for every key `k`
that is present, `put k v` succeeds, the pair `(k, v)` is then first in the
order sequence, the other entries follow with their keys, values and relative
order unchanged, the number of entries and the index are unchanged, so nothing
is evicted, also when the cache is full. -/
theorem lru_update_in_place (cap : Nat) (ops : List (Op K V)) (s : LruCache K V)
    (rs : List (Option V)) (hrun : LruCache.run cap ops = some (s, rs)) (k : K) (v0 v : V)
    (hk : UMap.find (LruCache.entries s) k = some v0) :
    ∃ s1, LruCache.put s k v = some s1 ∧
      LruCache.entries s1 =
        (k, v) :: (LruCache.entries s).filter (fun e => !decide (e.1 = k)) ∧
      (∀ k1, k1 ≠ k →
        UMap.find (LruCache.entries s1) k1 = UMap.find (LruCache.entries s) k1) ∧
      (LruCache.entries s1).length = (LruCache.entries s).length ∧
      s1.cache_map_ = s.cache_map_ ∧ s1.capacity_ = s.capacity_ := by
  obtain ⟨hw, -⟩ := LruCache.lru_run_wf_any hrun
  obtain ⟨it, hit, hm⟩ := hw.find_of_entry hk
  obtain ⟨hw1, he⟩ := LruCache.wf_moveFront hw hm v
  refine ⟨_, LruCache.put_present_eq hw v hit hm, he, ?_, ?_, rfl, rfl⟩
  · intro k1 hk1
    rw [he, ← UMap.erase_eq_filter]
    simp only [UMap.find, Ne.symm hk1, if_false]
    exact UMap.find_erase_ne _ (Ne.symm hk1)
  · have h1 := hw1.size_eq
    have h2 := hw.size_eq
    simp only [LruCache.entries, List.length_map] at h1 h2 ⊢
    omega

/-- Witness of C11: capacity 2, after `put(1,10)`, `put(2,20)` the cache is
full; `put(1,11)` moves key 1 in front with the new value and keeps key 2. -/
theorem lru_update_in_place_witness :
    ∃ s1, LruCache.put lruAfter12 1 11 = some s1 ∧
      LruCache.entries s1 =
        (1, 11) :: (LruCache.entries lruAfter12).filter (fun e => !decide (e.1 = 1)) ∧
      (∀ k1, k1 ≠ 1 →
        UMap.find (LruCache.entries s1) k1 = UMap.find (LruCache.entries lruAfter12) k1) ∧
      (LruCache.entries s1).length = (LruCache.entries lruAfter12).length ∧
      s1.cache_map_ = lruAfter12.cache_map_ ∧ s1.capacity_ = lruAfter12.capacity_ :=
  lru_update_in_place (K := Nat) (V := Nat) 2 [Op.put 1 10, Op.put 2 20] lruAfter12
    [none, none] (by decide) 1 10 11 (by decide)

omit [Inhabited V] in
/-- C16. In every state reached from a fresh `LruCache` of any capacity: the
keys of the order sequence are pairwise distinct, the index has one entry per
key and an entry for exactly the keys of the sequence, so both have the same
size, and the iterator stored for a key designates the cell that carries this
key. When a `put` of a new key finds the cache full (capacity at least 1), it
succeeds and the key of the last cell, which it evicts, has no index entry
afterwards and `get` on it is a miss. -/
theorem lru_index_order_invariant (cap : Nat) (ops : List (Op K V)) (s : LruCache K V)
    (rs : List (Option V)) (hrun : LruCache.run cap ops = some (s, rs)) :
    (s.lru_list_.map (fun cl => cl.2.key)).Nodup ∧
    (UMap.keys s.cache_map_).Nodup ∧
    (∀ k, k ∈ UMap.keys s.cache_map_ ↔ k ∈ s.lru_list_.map (fun cl => cl.2.key)) ∧
    UMap.size s.cache_map_ = s.lru_list_.length ∧
    (∀ k it, UMap.find s.cache_map_ k = some it →
      ∃ v, SList.deref s.lru_list_ it = some ⟨k, v⟩) ∧
    (∀ k v, UMap.find s.cache_map_ k = none → 1 ≤ s.capacity_ →
      s.capacity_ ≤ s.lru_list_.length →
      ∃ s1 last, LruCache.put s k v = some s1 ∧ SList.back s.lru_list_ = some last ∧
        UMap.find s1.cache_map_ last.key = none ∧
        LruCache.get s1 last.key = some (s1, none)) := by
  obtain ⟨hw, -⟩ := LruCache.lru_run_wf_any hrun
  refine ⟨hw.keysL, hw.keysM, ?_, hw.size_eq, ?_, ?_⟩
  · intro k
    rw [UMap.mem_keys_iff, ← LruCache.keys_entries, UMap.mem_keys_iff]
    exact not_congr (hw.find_none_iff k)
  · intro k it hf
    obtain ⟨v, hv⟩ := (hw.link k it).1 hf
    exact ⟨v, (SList.deref_erase_of_mem _ _ _ hw.addrs hv).1⟩
  · intro k v hfm hcap hfull
    rcases List.eq_nil_or_concat s.lru_list_ with hnil | ⟨L, b, hL⟩
    · rw [hnil] at hfull
      simp only [List.length_nil] at hfull
      omega
    · rw [List.concat_eq_append] at hL
      have hput := LruCache.put_absent_full_eq s v hfm hL hfull
      have hbk : SList.back s.lru_list_ = some b.2 := by
        rw [hL]; exact (SList.back_popBack_concat L b).1
      have hkb : k ≠ b.2.key := by
        intro e
        have hb : UMap.find s.cache_map_ b.2.key = some b.1 :=
          (hw.link _ _).2 ⟨b.2.value, by rw [hL]; simp⟩
        rw [← e, hfm] at hb
        cases hb
      have hnone : UMap.find (UMap.set (UMap.erase s.cache_map_ b.2.key) k
          (SList.maxAddr L + 1)) b.2.key = none := by
        rw [UMap.find_set_ne _ _ hkb, UMap.find_erase_self]
      exact ⟨_, b.2, hput, hbk, hnone, LruCache.get_miss _ _ hnone⟩

/-- Witness of C16: the cache of capacity 2 after `put(1,10)`, `put(2,20)`;
`put(3,30)` evicts key 1. -/
theorem lru_index_order_invariant_witness :
    (lruAfter12.lru_list_.map (fun cl => cl.2.key)).Nodup ∧
    (UMap.keys lruAfter12.cache_map_).Nodup ∧
    (∀ k, k ∈ UMap.keys lruAfter12.cache_map_ ↔
      k ∈ lruAfter12.lru_list_.map (fun cl => cl.2.key)) ∧
    UMap.size lruAfter12.cache_map_ = lruAfter12.lru_list_.length ∧
    (∀ k it, UMap.find lruAfter12.cache_map_ k = some it →
      ∃ v, SList.deref lruAfter12.lru_list_ it = some ⟨k, v⟩) ∧
    (∀ k v, UMap.find lruAfter12.cache_map_ k = none → 1 ≤ lruAfter12.capacity_ →
      lruAfter12.capacity_ ≤ lruAfter12.lru_list_.length →
      ∃ s1 last, LruCache.put lruAfter12 k v = some s1 ∧
        SList.back lruAfter12.lru_list_ = some last ∧
        UMap.find s1.cache_map_ last.key = none ∧
        LruCache.get s1 last.key = some (s1, none)) :=
  lru_index_order_invariant (K := Nat) (V := Nat) 2 [Op.put 1 10, Op.put 2 20] lruAfter12
    [none, none] (by decide)

omit [Inhabited V] in
/-- C19. In every state reached from a fresh `LruCache` and for every key `k`
present with value `v`, `get k` succeeds and returns `v`; afterwards the pair
`(k, v)` is first in the order sequence and the other entries follow in their
previous relative order; every key has the value it had, and the number of
entries and the index are unchanged. -/
theorem lru_get_hit_moves_front (cap : Nat) (ops : List (Op K V)) (s : LruCache K V)
    (rs : List (Option V)) (hrun : LruCache.run cap ops = some (s, rs)) (k : K) (v : V)
    (hk : UMap.find (LruCache.entries s) k = some v) :
    ∃ s1, LruCache.get s k = some (s1, some v) ∧
      LruCache.entries s1 =
        (k, v) :: (LruCache.entries s).filter (fun e => !decide (e.1 = k)) ∧
      (∀ k1, UMap.find (LruCache.entries s1) k1 = UMap.find (LruCache.entries s) k1) ∧
      (LruCache.entries s1).length = (LruCache.entries s).length ∧
      s1.cache_map_ = s.cache_map_ ∧ s1.capacity_ = s.capacity_ := by
  obtain ⟨hw, -⟩ := LruCache.lru_run_wf_any hrun
  obtain ⟨it, hit, hm⟩ := hw.find_of_entry hk
  obtain ⟨hw1, he⟩ := LruCache.wf_moveFront hw hm v
  refine ⟨_, LruCache.get_hit_eq hw hit hm, he, ?_, ?_, rfl, rfl⟩
  · intro k1
    rw [he, ← UMap.erase_eq_filter]
    by_cases hk1 : k = k1
    · subst hk1
      simp only [UMap.find, if_true]
      exact hk.symm
    · simp only [UMap.find, hk1, if_false]
      exact UMap.find_erase_ne _ hk1
  · have h1 := hw1.size_eq
    have h2 := hw.size_eq
    simp only [LruCache.entries, List.length_map] at h1 h2 ⊢
    omega

/-- Witness of C19: capacity 2, after `put(1,10)`, `put(2,20)`, `get(1)`
returns 10 and moves key 1 in front of key 2. -/
theorem lru_get_hit_moves_front_witness :
    ∃ s1, LruCache.get lruAfter12 1 = some (s1, some 10) ∧
      LruCache.entries s1 =
        (1, 10) :: (LruCache.entries lruAfter12).filter (fun e => !decide (e.1 = 1)) ∧
      (∀ k1, UMap.find (LruCache.entries s1) k1 =
        UMap.find (LruCache.entries lruAfter12) k1) ∧
      (LruCache.entries s1).length = (LruCache.entries lruAfter12).length ∧
      s1.cache_map_ = lruAfter12.cache_map_ ∧ s1.capacity_ = lruAfter12.capacity_ :=
  lru_get_hit_moves_front (K := Nat) (V := Nat) 2 [Op.put 1 10, Op.put 2 20] lruAfter12
    [none, none] (by decide) 1 10 (by decide)

/-- C12. On an `LfuCache` constructed with capacity 0 every sequence of calls
succeeds, ends in the state as constructed and returns absent for every `get`;
each `put` returns the state unchanged and each `get` misses. -/
theorem lfu_zero_capacity_noop (ops : List (Op K V)) :
    LfuCache.run 0 ops = some (LfuCache.new 0, List.replicate ops.length none) ∧
    (∀ (k : K) (v : V), LfuCache.put (LfuCache.new 0) k v = some (LfuCache.new 0)) ∧
    (∀ k : K, LfuCache.get (LfuCache.new 0 : LfuCache K V) k = some (LfuCache.new 0, none)) := by
  have hput : ∀ (k : K) (v : V), LfuCache.put (LfuCache.new 0) k v = some (LfuCache.new 0) :=
    fun k v => rfl
  have hget : ∀ k : K,
      LfuCache.get (LfuCache.new 0 : LfuCache K V) k = some (LfuCache.new 0, none) :=
    fun k => rfl
  refine ⟨?_, hput, hget⟩
  unfold LfuCache.run
  induction ops with
  | nil => rfl
  | cons op ops ih =>
    have hstep : LfuCache.step (LfuCache.new 0 : LfuCache K V) op =
        some (LfuCache.new 0, none) := by
      cases op with
      | get k => exact hget k
      | put k v => simp only [LfuCache.step, hput, Option.map_some']
    rw [LfuCache.runFrom, hstep]
    simp only [ih, List.length_cons, List.replicate_succ]

/-- C15. In every state reached from a fresh `LfuCache`: (i) a key occurs in
the list of tier `f` exactly when it is live with recorded frequency `f`, it
occurs there once, and it occurs in no other tier; (ii) no tier is empty;
(iii) `key_to_iter_` has an entry for exactly the keys of `key_to_val_`; and
each of the three maps has one entry per key. -/
theorem lfu_tier_consistency (cap : Nat) (ops : List (Op K V)) (s : LfuCache K V)
    (rs : List (Option V)) (hrun : LfuCache.run cap ops = some (s, rs)) :
    (∀ k f, (∃ t, UMap.find s.freq_to_keys_ f = some t ∧ k ∈ t.map Prod.snd) ↔
      (∃ n, UMap.find s.key_to_val_ k = some n ∧ n.freq = f)) ∧
    (∀ f t, UMap.find s.freq_to_keys_ f = some t → (t.map Prod.snd).Nodup) ∧
    (∀ k f g t u, UMap.find s.freq_to_keys_ f = some t → UMap.find s.freq_to_keys_ g = some u →
      k ∈ t.map Prod.snd → k ∈ u.map Prod.snd → f = g) ∧
    (∀ f t, UMap.find s.freq_to_keys_ f = some t → t ≠ []) ∧
    (∀ k, (UMap.find s.key_to_iter_ k).isSome ↔ (UMap.find s.key_to_val_ k).isSome) ∧
    (UMap.keys s.key_to_val_).Nodup ∧ (UMap.keys s.freq_to_keys_).Nodup ∧
    (UMap.keys s.key_to_iter_).Nodup := by
  obtain ⟨hinv, -⟩ := LfuCache.lfu_run_inv hrun
  have hc := hinv.core
  have hfreq : ∀ k f t, UMap.find s.freq_to_keys_ f = some t → k ∈ t.map Prod.snd →
      ∃ n, UMap.find s.key_to_val_ k = some n ∧ n.freq = f := by
    intro k f t ht hk
    obtain ⟨cl, hcl, e⟩ := List.mem_map.1 hk
    obtain ⟨-, n, hn1, hn2⟩ := (hc.tier f t ht).2.2 cl.1 cl.2 hcl
    exact ⟨n, e ▸ hn1, hn2⟩
  refine ⟨?_, ?_, ?_, fun f t ht => (hc.tier f t ht).1, ?_, hc.keysV, hc.keysF, hc.keysI⟩
  · intro k f
    constructor
    · rintro ⟨t, ht, hk⟩
      exact hfreq k f t ht hk
    · rintro ⟨n, hn1, hn2⟩
      obtain ⟨it, t, -, ht, hmem⟩ := hc.live k n hn1
      exact ⟨t, hn2 ▸ ht, List.mem_map.2 ⟨_, hmem, rfl⟩⟩
  · intro f t ht
    obtain ⟨-, hnd, hcells⟩ := hc.tier f t ht
    refine List.Nodup.map_on ?_ (List.Nodup.of_map _ hnd)
    intro x hx y hy e
    obtain ⟨h1, -⟩ := hcells x.1 x.2 hx
    obtain ⟨h2, -⟩ := hcells y.1 y.2 hy
    rw [e, h2] at h1
    simp only [Option.some.injEq] at h1
    exact Prod.ext h1.symm e
  · intro k f g t u ht hu hkt hku
    obtain ⟨n1, h1, h2⟩ := hfreq k f t ht hkt
    obtain ⟨n2, h3, h4⟩ := hfreq k g u hu hku
    rw [h1] at h3
    simp only [Option.some.injEq] at h3
    rw [← h2, ← h4, h3]
  · intro k
    constructor
    · intro hk
      by_contra hn
      have := hc.iter k (by simpa using hn)
      rw [this] at hk
      simp at hk
    · intro hk
      obtain ⟨n, hn⟩ := Option.isSome_iff_exists.1 hk
      obtain ⟨it, t, hit, -⟩ := hc.live k n hn
      rw [hit]; rfl

/-- Witness of C15: the cache of capacity 2 after `put(A,1)`, `put(B,2)`. -/
theorem lfu_tier_consistency_witness :
    (∀ k f, (∃ t, UMap.find lfuAfterAB.freq_to_keys_ f = some t ∧ k ∈ t.map Prod.snd) ↔
      (∃ n, UMap.find lfuAfterAB.key_to_val_ k = some n ∧ n.freq = f)) ∧
    (∀ f t, UMap.find lfuAfterAB.freq_to_keys_ f = some t → (t.map Prod.snd).Nodup) ∧
    (∀ k f g t u, UMap.find lfuAfterAB.freq_to_keys_ f = some t →
      UMap.find lfuAfterAB.freq_to_keys_ g = some u →
      k ∈ t.map Prod.snd → k ∈ u.map Prod.snd → f = g) ∧
    (∀ f t, UMap.find lfuAfterAB.freq_to_keys_ f = some t → t ≠ []) ∧
    (∀ k, (UMap.find lfuAfterAB.key_to_iter_ k).isSome ↔
      (UMap.find lfuAfterAB.key_to_val_ k).isSome) ∧
    (UMap.keys lfuAfterAB.key_to_val_).Nodup ∧ (UMap.keys lfuAfterAB.freq_to_keys_).Nodup ∧
    (UMap.keys lfuAfterAB.key_to_iter_).Nodup :=
  lfu_tier_consistency 2 [Op.put Key3.A 1, Op.put Key3.B 2] lfuAfterAB [none, none]
    (by decide)

omit [Inhabited V] in
/-- C18 (fails on the code for `LruCache` at capacity 0). A fresh `LruCache` of
capacity 0 is full with an empty order sequence, so `put` takes the last
element of an empty sequence: `back()` and `pop_back()` are undefined there
and the call fails. -/
theorem lru_zero_capacity_takes_last_of_empty (k : K) (v : V) :
    (LruCache.new 0 : LruCache K V).capacity_ ≤ (LruCache.new 0 : LruCache K V).lru_list_.length ∧
    SList.back (LruCache.new 0 : LruCache K V).lru_list_ = none ∧
    SList.popBack (LruCache.new 0 : LruCache K V).lru_list_ = none ∧
    LruCache.step (LruCache.new 0 : LruCache K V) (Op.put k v) = none := by
  refine ⟨le_refl _, rfl, rfl, ?_⟩
  simp [LruCache.step, LruCache.put, LruCache.new, UMap.find, LruCache.evictIfFull,
    SList.back, SList.popBack]

/-- C20. For every capacity and every sequence of calls on freshly
constructed caches, `LRUCache` of cache_demo.cpp gives the results of `LruCache`
and `LFUCache` of cache_demo.cpp gives the results of `LfuCache`, call by call
(both runs are undefined together). The `LfuCache` run is always defined, the
`LruCache` run for every capacity other than 0. -/
theorem demo_agrees_with_headers (cap : Nat) (ops : List (Op K V)) :
    (LRUCache.run cap ops).map Prod.snd = (LruCache.run cap ops).map Prod.snd ∧
    (LFUCache.run cap ops).map Prod.snd = (LfuCache.run cap ops).map Prod.snd ∧
    (∃ rs, (LfuCache.run cap ops).map Prod.snd = some rs) ∧
    (cap = 0 ∨ ∃ rs, (LruCache.run cap ops).map Prod.snd = some rs) := by
  refine ⟨LRUCache.run_results_eq cap ops, LFUCache.lfu_run_results_eq cap ops, ?_, ?_⟩
  · obtain ⟨s, rs, h1, -⟩ :=
      LfuCache.lfu_runFrom_inv (LfuCache.inv_new (K := K) (V := V) cap) ops
    exact ⟨rs, by rw [LfuCache.run, h1]; rfl⟩
  · by_cases hcap : cap = 0
    · exact Or.inl hcap
    · right
      obtain ⟨s, rs, h1, -⟩ :=
        LruCache.runFrom_wf (LruCache.wf_new (K := K) (V := V) cap) (by
          show 1 ≤ cap
          omega) ops
      exact ⟨rs, by rw [LruCache.run, h1]; rfl⟩

end Claims

end CacheModel
